import Mathlib

/-!
Verification development for the MiSub subscription-aggregation pipeline.

JavaScript strings are modelled as lists of Unicode scalar values
(`List Char`), byte strings as `List Nat` with every byte `< 256`.
Fallible JavaScript operations (`atob`, `JSON.parse`,
`decodeURIComponent`, ...) are modelled with `Option` / `Except`;
an uncaught exception corresponds to `none` / `.error`.
-/

set_option maxRecDepth 8192

namespace MiSub

/-- JS strings: lists of Unicode scalar values. -/
abbrev Str := List Char

/-! ## Character classes -/

/-- Whitespace recognized by the JS regex `\s` and by `String.prototype.trim`. -/
def isJsWs (c : Char) : Bool :=
  c = '\t' || c = '\n' || c = '\x0b' || c = '\x0c' || c = '\r' || c = ' ' ||
  c = ' ' || c = ' ' || (0x2000 ≤ c.toNat && c.toNat ≤ 0x200a) ||
  c = ' ' || c = ' ' || c = ' ' || c = ' ' ||
  c = '　' || c = '﻿'

/-- ASCII whitespace stripped by the forgiving-base64 algorithm behind `atob`. -/
def isB64Ws (c : Char) : Bool :=
  c = '\t' || c = '\n' || c = '\x0c' || c = '\r' || c = ' '

/-- Model of `String.prototype.trim`. -/
def jsTrim (s : Str) : Str :=
  ((s.dropWhile isJsWs).reverse.dropWhile isJsWs).reverse

/-! ## Hex digits -/

def hexDigitLower (n : Nat) : Char :=
  Char.ofNat (if n < 10 then 48 + n else 87 + n)

def hexDigitUpper (n : Nat) : Char :=
  Char.ofNat (if n < 10 then 48 + n else 55 + n)

def hexVal? (c : Char) : Option Nat :=
  if 48 ≤ c.toNat ∧ c.toNat ≤ 57 then some (c.toNat - 48)
  else if 97 ≤ c.toNat ∧ c.toNat ≤ 102 then some (c.toNat - 87)
  else if 65 ≤ c.toNat ∧ c.toNat ≤ 70 then some (c.toNat - 55)
  else none

/-! ## UTF-8 -/

/-- UTF-8 encoding of one Unicode scalar value. -/
def utf8EncodeChar (c : Char) : List Nat :=
  let n := c.toNat
  if n < 0x80 then [n]
  else if n < 0x800 then [0xc0 + n / 64, 0x80 + n % 64]
  else if n < 0x10000 then [0xe0 + n / 4096, 0x80 + n / 64 % 64, 0x80 + n % 64]
  else [0xf0 + n / 262144, 0x80 + n / 4096 % 64, 0x80 + n / 64 % 64, 0x80 + n % 64]

/-- UTF-8 encoding of a string; this is what
`unescape(encodeURIComponent(s))` turns into bytes before `btoa`. -/
def utf8Encode (s : Str) : List Nat :=
  (s.map utf8EncodeChar).flatten

/-- Condition for a valid two-byte UTF-8 sequence. -/
def Utf8Two (b b2 : Nat) : Prop :=
  0xc2 ≤ b ∧ b ≤ 0xdf ∧ 0x80 ≤ b2 ∧ b2 < 0xc0

/-- Condition for a valid three-byte UTF-8 sequence with scalar value `n`. -/
def Utf8Three (b2 b3 n : Nat) : Prop :=
  (0x80 ≤ b2 ∧ b2 < 0xc0) ∧ (0x80 ≤ b3 ∧ b3 < 0xc0) ∧
  0x800 ≤ n ∧ (n < 0xd800 ∨ 0xdfff < n)

/-- Condition for a valid four-byte UTF-8 sequence with scalar value `n`. -/
def Utf8Four (b2 b3 b4 n : Nat) : Prop :=
  (0x80 ≤ b2 ∧ b2 < 0xc0) ∧ (0x80 ≤ b3 ∧ b3 < 0xc0) ∧ (0x80 ≤ b4 ∧ b4 < 0xc0) ∧
  0x10000 ≤ n ∧ n ≤ 0x10ffff

instance (b b2 : Nat) : Decidable (Utf8Two b b2) := by unfold Utf8Two; infer_instance

instance (b2 b3 n : Nat) : Decidable (Utf8Three b2 b3 n) := by unfold Utf8Three; infer_instance

instance (b2 b3 b4 n : Nat) : Decidable (Utf8Four b2 b3 b4 n) := by
  unfold Utf8Four; infer_instance

/-- Strict UTF-8 decoding (rejects overlong forms, surrogates and truncation). -/
def utf8Decode? : List Nat → Option Str
  | [] => some []
  | b :: rest =>
    if b < 0x80 then
      (utf8Decode? rest).map (fun t => Char.ofNat b :: t)
    else if Utf8Two b (rest.getD 0 0) then
      (utf8Decode? (rest.drop 1)).map
        (fun t => Char.ofNat ((b - 0xc0) * 64 + (rest.getD 0 0 - 0x80)) :: t)
    else if 0xe0 ≤ b ∧ b ≤ 0xef ∧
        Utf8Three (rest.getD 0 0) (rest.getD 1 0)
          ((b - 0xe0) * 4096 + (rest.getD 0 0 - 0x80) * 64 + (rest.getD 1 0 - 0x80)) then
      (utf8Decode? (rest.drop 2)).map
        (fun t =>
          Char.ofNat ((b - 0xe0) * 4096 + (rest.getD 0 0 - 0x80) * 64 +
            (rest.getD 1 0 - 0x80)) :: t)
    else if 0xf0 ≤ b ∧ b ≤ 0xf4 ∧
        Utf8Four (rest.getD 0 0) (rest.getD 1 0) (rest.getD 2 0)
          ((b - 0xf0) * 262144 + (rest.getD 0 0 - 0x80) * 4096 + (rest.getD 1 0 - 0x80) * 64 +
            (rest.getD 2 0 - 0x80)) then
      (utf8Decode? (rest.drop 3)).map
        (fun t =>
          Char.ofNat ((b - 0xf0) * 262144 + (rest.getD 0 0 - 0x80) * 4096 +
            (rest.getD 1 0 - 0x80) * 64 + (rest.getD 2 0 - 0x80)) :: t)
    else none
termination_by l => l.length
decreasing_by
  all_goals (simp [List.length_drop]; try omega)

/-- Lossy UTF-8 decoding: a malformed byte becomes U+FFFD and one byte is
consumed, approximating `new TextDecoder('utf-8')` in its default
non-fatal mode (which never throws). -/
def utf8DecodeLossy : List Nat → Str
  | [] => []
  | b :: rest =>
    if b < 0x80 then
      Char.ofNat b :: utf8DecodeLossy rest
    else if Utf8Two b (rest.getD 0 0) then
      Char.ofNat ((b - 0xc0) * 64 + (rest.getD 0 0 - 0x80)) :: utf8DecodeLossy (rest.drop 1)
    else if 0xe0 ≤ b ∧ b ≤ 0xef ∧
        Utf8Three (rest.getD 0 0) (rest.getD 1 0)
          ((b - 0xe0) * 4096 + (rest.getD 0 0 - 0x80) * 64 + (rest.getD 1 0 - 0x80)) then
      Char.ofNat ((b - 0xe0) * 4096 + (rest.getD 0 0 - 0x80) * 64 + (rest.getD 1 0 - 0x80)) ::
        utf8DecodeLossy (rest.drop 2)
    else if 0xf0 ≤ b ∧ b ≤ 0xf4 ∧
        Utf8Four (rest.getD 0 0) (rest.getD 1 0) (rest.getD 2 0)
          ((b - 0xf0) * 262144 + (rest.getD 0 0 - 0x80) * 4096 + (rest.getD 1 0 - 0x80) * 64 +
            (rest.getD 2 0 - 0x80)) then
      Char.ofNat ((b - 0xf0) * 262144 + (rest.getD 0 0 - 0x80) * 4096 +
        (rest.getD 1 0 - 0x80) * 64 + (rest.getD 2 0 - 0x80)) :: utf8DecodeLossy (rest.drop 3)
    else Char.ofNat 0xfffd :: utf8DecodeLossy rest
termination_by l => l.length
decreasing_by
  all_goals (simp [List.length_drop]; try omega)

theorem char_valid_ranges (c : Char) :
    c.toNat < 0xd800 ∨ (0xdfff < c.toNat ∧ c.toNat < 0x110000) := by
  have h := c.valid
  rcases h with h | h
  · left; exact h
  · right; exact h

theorem char_toNat_lt (c : Char) : c.toNat < 0x110000 := by
  have := char_valid_ranges c; omega

theorem utf8EncodeChar_lt (c : Char) : ∀ b ∈ utf8EncodeChar c, b < 256 := by
  have h4 := char_toNat_lt c
  intro b hb
  simp only [utf8EncodeChar] at hb
  by_cases h1 : c.toNat < 0x80
  · rw [if_pos h1] at hb; simp at hb; omega
  · rw [if_neg h1] at hb
    by_cases h2 : c.toNat < 0x800
    · rw [if_pos h2] at hb; simp at hb; rcases hb with h | h <;> omega
    · rw [if_neg h2] at hb
      by_cases h3 : c.toNat < 0x10000
      · rw [if_pos h3] at hb; simp at hb; rcases hb with h | h | h <;> omega
      · rw [if_neg h3] at hb; simp at hb; rcases hb with h | h | h | h <;> omega

theorem utf8Encode_lt (s : Str) : ∀ b ∈ utf8Encode s, b < 256 := by
  intro b hb
  unfold utf8Encode at hb
  simp [List.mem_flatten] at hb
  obtain ⟨c, _, hc⟩ := hb
  exact utf8EncodeChar_lt c b hc

theorem getD0_cons {α : Type} (a d : α) (l : List α) : (a :: l).getD 0 d = a := rfl

theorem getD1_cons {α : Type} (a b d : α) (l : List α) : (a :: b :: l).getD 1 d = b := rfl

theorem getD2_cons {α : Type} (a b c d : α) (l : List α) : (a :: b :: c :: l).getD 2 d = c := rfl

theorem drop1_cons {α : Type} (a : α) (l : List α) : (a :: l).drop 1 = l := rfl

theorem drop2_cons {α : Type} (a b : α) (l : List α) : (a :: b :: l).drop 2 = l := rfl

theorem drop3_cons {α : Type} (a b c : α) (l : List α) : (a :: b :: c :: l).drop 3 = l := rfl

theorem utf8Decode?_encodeChar (c : Char) (rest : List Nat) :
    utf8Decode? (utf8EncodeChar c ++ rest) = (utf8Decode? rest).map (fun t => c :: t) := by
  have hv := char_valid_ranges c
  have hofNat : Char.ofNat c.toNat = c := Char.ofNat_toNat c
  simp only [utf8EncodeChar]
  by_cases h1 : c.toNat < 0x80
  · rw [if_pos h1]
    simp only [List.cons_append, List.nil_append, utf8Decode?]
    rw [if_pos h1]
    simp only [hofNat]
  · rw [if_neg h1]
    by_cases h2 : c.toNat < 0x800
    · rw [if_pos h2]
      have hb : ¬ (0xc0 + c.toNat / 64 < 0x80) := by omega
      have h2b : Utf8Two (0xc0 + c.toNat / 64) (0x80 + c.toNat % 64) := by
        unfold Utf8Two; omega
      have hval : (0xc0 + c.toNat / 64 - 0xc0) * 64 + (0x80 + c.toNat % 64 - 0x80)
          = c.toNat := by omega
      simp only [List.cons_append, List.nil_append, utf8Decode?, getD0_cons, drop1_cons]
      rw [if_neg hb, if_pos h2b]
      simp only [hval, hofNat]
    · by_cases h3 : c.toNat < 0x10000
      · rw [if_neg h2, if_pos h3]
        have hb : ¬ (0xe0 + c.toNat / 4096 < 0x80) := by omega
        have hn2 : ¬ Utf8Two (0xe0 + c.toNat / 4096) (0x80 + c.toNat / 64 % 64) := by
          unfold Utf8Two; omega
        have hval : (0xe0 + c.toNat / 4096 - 0xe0) * 4096 + (0x80 + c.toNat / 64 % 64 - 0x80) * 64
            + (0x80 + c.toNat % 64 - 0x80) = c.toNat := by omega
        have h3b : 0xe0 ≤ 0xe0 + c.toNat / 4096 ∧ 0xe0 + c.toNat / 4096 ≤ 0xef ∧
            Utf8Three (0x80 + c.toNat / 64 % 64) (0x80 + c.toNat % 64)
              ((0xe0 + c.toNat / 4096 - 0xe0) * 4096 + (0x80 + c.toNat / 64 % 64 - 0x80) * 64 +
                (0x80 + c.toNat % 64 - 0x80)) := by
          unfold Utf8Three; omega
        simp only [List.cons_append, List.nil_append, utf8Decode?, getD0_cons, getD1_cons,
          drop2_cons]
        rw [if_neg hb, if_neg hn2, if_pos h3b]
        simp only [hval, hofNat]
      · rw [if_neg h2, if_neg h3]
        have h4 := char_toNat_lt c
        have hb : ¬ (0xf0 + c.toNat / 262144 < 0x80) := by omega
        have hn2 : ¬ Utf8Two (0xf0 + c.toNat / 262144) (0x80 + c.toNat / 4096 % 64) := by
          unfold Utf8Two; omega
        have hval : (0xf0 + c.toNat / 262144 - 0xf0) * 262144 +
            (0x80 + c.toNat / 4096 % 64 - 0x80) * 4096 + (0x80 + c.toNat / 64 % 64 - 0x80) * 64 +
            (0x80 + c.toNat % 64 - 0x80) = c.toNat := by omega
        have hn3 : ¬ (0xe0 ≤ 0xf0 + c.toNat / 262144 ∧ 0xf0 + c.toNat / 262144 ≤ 0xef ∧
            Utf8Three (0x80 + c.toNat / 4096 % 64) (0x80 + c.toNat / 64 % 64)
              ((0xf0 + c.toNat / 262144 - 0xe0) * 4096 + (0x80 + c.toNat / 4096 % 64 - 0x80) * 64 +
                (0x80 + c.toNat / 64 % 64 - 0x80))) := by
          rintro ⟨_, hle, _⟩; omega
        have h4b : 0xf0 ≤ 0xf0 + c.toNat / 262144 ∧ 0xf0 + c.toNat / 262144 ≤ 0xf4 ∧
            Utf8Four (0x80 + c.toNat / 4096 % 64) (0x80 + c.toNat / 64 % 64)
              (0x80 + c.toNat % 64)
              ((0xf0 + c.toNat / 262144 - 0xf0) * 262144 +
                (0x80 + c.toNat / 4096 % 64 - 0x80) * 4096 +
                (0x80 + c.toNat / 64 % 64 - 0x80) * 64 + (0x80 + c.toNat % 64 - 0x80)) := by
          refine ⟨by omega, by omega, ?_⟩
          unfold Utf8Four; omega
        simp only [List.cons_append, List.nil_append, utf8Decode?, getD0_cons, getD1_cons,
          getD2_cons, drop3_cons]
        rw [if_neg hb, if_neg hn2, if_neg hn3, if_pos h4b]
        simp only [hval, hofNat]

theorem utf8DecodeLossy_encodeChar (c : Char) (rest : List Nat) :
    utf8DecodeLossy (utf8EncodeChar c ++ rest) = c :: utf8DecodeLossy rest := by
  have hv := char_valid_ranges c
  have hofNat : Char.ofNat c.toNat = c := Char.ofNat_toNat c
  simp only [utf8EncodeChar]
  by_cases h1 : c.toNat < 0x80
  · rw [if_pos h1]
    simp only [List.cons_append, List.nil_append, utf8DecodeLossy]
    rw [if_pos h1]
    simp only [hofNat]
  · rw [if_neg h1]
    by_cases h2 : c.toNat < 0x800
    · rw [if_pos h2]
      have hb : ¬ (0xc0 + c.toNat / 64 < 0x80) := by omega
      have h2b : Utf8Two (0xc0 + c.toNat / 64) (0x80 + c.toNat % 64) := by
        unfold Utf8Two; omega
      have hval : (0xc0 + c.toNat / 64 - 0xc0) * 64 + (0x80 + c.toNat % 64 - 0x80)
          = c.toNat := by omega
      simp only [List.cons_append, List.nil_append, utf8DecodeLossy, getD0_cons, drop1_cons]
      rw [if_neg hb, if_pos h2b]
      simp only [hval, hofNat]
    · by_cases h3 : c.toNat < 0x10000
      · rw [if_neg h2, if_pos h3]
        have hb : ¬ (0xe0 + c.toNat / 4096 < 0x80) := by omega
        have hn2 : ¬ Utf8Two (0xe0 + c.toNat / 4096) (0x80 + c.toNat / 64 % 64) := by
          unfold Utf8Two; omega
        have hval : (0xe0 + c.toNat / 4096 - 0xe0) * 4096 + (0x80 + c.toNat / 64 % 64 - 0x80) * 64
            + (0x80 + c.toNat % 64 - 0x80) = c.toNat := by omega
        have h3b : 0xe0 ≤ 0xe0 + c.toNat / 4096 ∧ 0xe0 + c.toNat / 4096 ≤ 0xef ∧
            Utf8Three (0x80 + c.toNat / 64 % 64) (0x80 + c.toNat % 64)
              ((0xe0 + c.toNat / 4096 - 0xe0) * 4096 + (0x80 + c.toNat / 64 % 64 - 0x80) * 64 +
                (0x80 + c.toNat % 64 - 0x80)) := by
          unfold Utf8Three; omega
        simp only [List.cons_append, List.nil_append, utf8DecodeLossy, getD0_cons, getD1_cons,
          drop2_cons]
        rw [if_neg hb, if_neg hn2, if_pos h3b]
        simp only [hval, hofNat]
      · rw [if_neg h2, if_neg h3]
        have h4 := char_toNat_lt c
        have hb : ¬ (0xf0 + c.toNat / 262144 < 0x80) := by omega
        have hn2 : ¬ Utf8Two (0xf0 + c.toNat / 262144) (0x80 + c.toNat / 4096 % 64) := by
          unfold Utf8Two; omega
        have hval : (0xf0 + c.toNat / 262144 - 0xf0) * 262144 +
            (0x80 + c.toNat / 4096 % 64 - 0x80) * 4096 + (0x80 + c.toNat / 64 % 64 - 0x80) * 64 +
            (0x80 + c.toNat % 64 - 0x80) = c.toNat := by omega
        have hn3 : ¬ (0xe0 ≤ 0xf0 + c.toNat / 262144 ∧ 0xf0 + c.toNat / 262144 ≤ 0xef ∧
            Utf8Three (0x80 + c.toNat / 4096 % 64) (0x80 + c.toNat / 64 % 64)
              ((0xf0 + c.toNat / 262144 - 0xe0) * 4096 + (0x80 + c.toNat / 4096 % 64 - 0x80) * 64 +
                (0x80 + c.toNat / 64 % 64 - 0x80))) := by
          rintro ⟨_, hle, _⟩; omega
        have h4b : 0xf0 ≤ 0xf0 + c.toNat / 262144 ∧ 0xf0 + c.toNat / 262144 ≤ 0xf4 ∧
            Utf8Four (0x80 + c.toNat / 4096 % 64) (0x80 + c.toNat / 64 % 64)
              (0x80 + c.toNat % 64)
              ((0xf0 + c.toNat / 262144 - 0xf0) * 262144 +
                (0x80 + c.toNat / 4096 % 64 - 0x80) * 4096 +
                (0x80 + c.toNat / 64 % 64 - 0x80) * 64 + (0x80 + c.toNat % 64 - 0x80)) := by
          refine ⟨by omega, by omega, ?_⟩
          unfold Utf8Four; omega
        simp only [List.cons_append, List.nil_append, utf8DecodeLossy, getD0_cons, getD1_cons,
          getD2_cons, drop3_cons]
        rw [if_neg hb, if_neg hn2, if_neg hn3, if_pos h4b]
        simp only [hval, hofNat]

theorem utf8Decode?_encode (s : Str) : utf8Decode? (utf8Encode s) = some s := by
  induction s with
  | nil => simp [utf8Encode, utf8Decode?]
  | cons c cs ih =>
    have h : utf8Encode (c :: cs) = utf8EncodeChar c ++ utf8Encode cs := by
      simp [utf8Encode]
    rw [h, utf8Decode?_encodeChar, ih]
    rfl

theorem utf8DecodeLossy_encode (s : Str) : utf8DecodeLossy (utf8Encode s) = s := by
  induction s with
  | nil => simp [utf8Encode, utf8DecodeLossy]
  | cons c cs ih =>
    have h : utf8Encode (c :: cs) = utf8EncodeChar c ++ utf8Encode cs := by
      simp [utf8Encode]
    rw [h, utf8DecodeLossy_encodeChar, ih]

/-! ## Base64: models of `btoa` and `atob` -/

def b64Alphabet : Str :=
  "ABCDEFGHIJKLMNOPQRSTUVWXYZabcdefghijklmnopqrstuvwxyz0123456789+/".data

def b64c (n : Nat) : Char := b64Alphabet.getD n 'A'

def b64Index (c : Char) : Option Nat := b64Alphabet.findIdx? (fun x => x = c)

/-- Base64 encoding without padding characters. -/
def btoaNoPad : List Nat → Str
  | [] => []
  | [b1] => [b64c (b1 / 4), b64c (b1 % 4 * 16)]
  | [b1, b2] => [b64c (b1 / 4), b64c (b1 % 4 * 16 + b2 / 16), b64c (b2 % 16 * 4)]
  | b1 :: b2 :: b3 :: rest =>
    b64c (b1 / 4) :: b64c (b1 % 4 * 16 + b2 / 16) :: b64c (b2 % 16 * 4 + b3 / 64) ::
      b64c (b3 % 64) :: btoaNoPad rest

/-- The sextet stream behind `btoaNoPad`. -/
def sextetsOf : List Nat → List Nat
  | [] => []
  | [b1] => [b1 / 4, b1 % 4 * 16]
  | [b1, b2] => [b1 / 4, b1 % 4 * 16 + b2 / 16, b2 % 16 * 4]
  | b1 :: b2 :: b3 :: rest =>
    b1 / 4 :: (b1 % 4 * 16 + b2 / 16) :: (b2 % 16 * 4 + b3 / 64) :: b3 % 64 :: sextetsOf rest

/-- Padding emitted by `btoa`, as a function of the byte count mod 3. -/
def b64Pad (r : Nat) : Str := if r = 1 then ['=', '='] else if r = 2 then ['='] else []

/-- Model of `btoa` on a byte string. -/
def btoa (bytes : List Nat) : Str := btoaNoPad bytes ++ b64Pad (bytes.length % 3)

/-- Reassemble bytes from a sextet stream, discarding leftover bits as
forgiving-base64 does. -/
def b64Sextets : List Nat → List Nat
  | s1 :: s2 :: s3 :: s4 :: rest =>
    (s1 * 4 + s2 / 16) :: (s2 % 16 * 16 + s3 / 4) :: (s3 % 4 * 64 + s4) :: b64Sextets rest
  | [s1, s2] => [s1 * 4 + s2 / 16]
  | [s1, s2, s3] => [s1 * 4 + s2 / 16, s2 % 16 * 16 + s3 / 4]
  | _ => []

/-- Drop one or two leading `=` characters. -/
def dropLeadingEq (t : Str) : Str :=
  match t with
  | x :: y :: r => if x = '=' then (if y = '=' then r else y :: r) else t
  | [x] => if x = '=' then [] else t
  | [] => []

/-- Drop one or two trailing `=` characters, as forgiving-base64 does when the
whitespace-stripped input length is a multiple of four. -/
def dropTrailingEq (t : Str) : Str := (dropLeadingEq t.reverse).reverse

/-- Padding-stripping step of forgiving-base64: trailing `=` are removed only
when the whitespace-stripped length is a multiple of four. -/
def atobStrip (t0 : Str) : Str :=
  if t0.length % 4 = 0 then dropTrailingEq t0 else t0

/-- Alphabet-decoding step of forgiving-base64. -/
def atobClean (t : Str) : Option (List Nat) :=
  if t.length % 4 = 1 then none
  else
    match t.mapM b64Index with
    | some sextets => some (b64Sextets sextets)
    | none => none

/-- Model of `atob`: the WHATWG forgiving-base64 decode; `none` models a thrown
`InvalidCharacterError`. -/
def atob (s : Str) : Option (List Nat) :=
  atobClean (atobStrip (s.filter (fun c => !isB64Ws c)))

theorem b64Index_b64c : ∀ n, n < 64 → b64Index (b64c n) = some n := by decide

theorem b64c_not_ws : ∀ n, n < 64 → isB64Ws (b64c n) = false := by decide

theorem b64c_ne_eq : ∀ n, n < 64 → b64c n ≠ '=' := by decide

theorem sextetsOf_lt (bytes : List Nat) (h : ∀ b ∈ bytes, b < 256) :
    ∀ s ∈ sextetsOf bytes, s < 64 := by
  induction bytes using sextetsOf.induct with
  | case1 => simp [sextetsOf]
  | case2 b1 =>
    simp only [sextetsOf]
    have hb1 : b1 < 256 := h b1 (by simp)
    intro s hs
    simp at hs
    rcases hs with h1 | h1 <;> omega
  | case3 b1 b2 =>
    simp only [sextetsOf]
    have hb1 : b1 < 256 := h b1 (by simp)
    have hb2 : b2 < 256 := h b2 (by simp)
    intro s hs
    simp at hs
    rcases hs with h1 | h1 | h1 <;> omega
  | case4 b1 b2 b3 rest ih =>
    simp only [sextetsOf]
    have hb1 : b1 < 256 := h b1 (by simp)
    have hb2 : b2 < 256 := h b2 (by simp)
    have hb3 : b3 < 256 := h b3 (by simp)
    intro s hs
    simp at hs
    rcases hs with h1 | h1 | h1 | h1 | h1
    · omega
    · omega
    · omega
    · omega
    · exact ih (fun b hb => h b (by simp [hb])) s h1

theorem btoaNoPad_eq_map (bytes : List Nat) :
    btoaNoPad bytes = (sextetsOf bytes).map b64c := by
  induction bytes using sextetsOf.induct with
  | case1 => rfl
  | case2 b1 => rfl
  | case3 b1 b2 => rfl
  | case4 b1 b2 b3 rest ih => simp [btoaNoPad, sextetsOf, ih]

theorem mapM_b64Index_map_b64c (l : List Nat) (h : ∀ s ∈ l, s < 64) :
    (l.map b64c).mapM b64Index = some l := by
  induction l with
  | nil => rfl
  | cons s rest ih =>
    have hs : s < 64 := h s (by simp)
    have hrest := ih (fun x hx => h x (by simp [hx]))
    simp only [List.map_cons, List.mapM_cons, b64Index_b64c s hs, hrest]
    rfl

theorem b64Sextets_sextetsOf (bytes : List Nat) (h : ∀ b ∈ bytes, b < 256) :
    b64Sextets (sextetsOf bytes) = bytes := by
  induction bytes using sextetsOf.induct with
  | case1 => rfl
  | case2 b1 =>
    have hb1 : b1 < 256 := h b1 (by simp)
    simp only [sextetsOf, b64Sextets]
    congr 1
    omega
  | case3 b1 b2 =>
    have hb1 : b1 < 256 := h b1 (by simp)
    have hb2 : b2 < 256 := h b2 (by simp)
    simp only [sextetsOf, b64Sextets]
    congr 1
    · omega
    · congr 1; omega
  | case4 b1 b2 b3 rest ih =>
    have hb1 : b1 < 256 := h b1 (by simp)
    have hb2 : b2 < 256 := h b2 (by simp)
    have hb3 : b3 < 256 := h b3 (by simp)
    have hrest := ih (fun b hb => h b (by simp [hb]))
    simp only [sextetsOf, b64Sextets, hrest]
    congr 1
    · omega
    · congr 1
      · omega
      · congr 1; omega

theorem mem_btoa_cases (bytes : List Nat) (h : ∀ b ∈ bytes, b < 256) :
    ∀ c ∈ btoa bytes, (∃ n, n < 64 ∧ c = b64c n) ∨ c = '=' := by
  intro c hc
  unfold btoa at hc
  rcases List.mem_append.mp hc with hc | hc
  · rw [btoaNoPad_eq_map] at hc
    obtain ⟨n, hn, rfl⟩ := List.mem_map.mp hc
    exact Or.inl ⟨n, sextetsOf_lt bytes h n hn, rfl⟩
  · unfold b64Pad at hc
    right
    split at hc
    · simp at hc; tauto
    · split at hc
      · simp at hc; tauto
      · simp at hc

theorem filter_btoa (bytes : List Nat) (h : ∀ b ∈ bytes, b < 256) :
    (btoa bytes).filter (fun c => !isB64Ws c) = btoa bytes := by
  rw [List.filter_eq_self]
  intro c hc
  rcases mem_btoa_cases bytes h c hc with ⟨n, hn, rfl⟩ | rfl
  · simp [b64c_not_ws n hn]
  · decide

theorem btoaNoPad_length (bytes : List Nat) :
    (btoaNoPad bytes).length = (sextetsOf bytes).length := by
  rw [btoaNoPad_eq_map, List.length_map]

theorem btoa_cons3 (b1 b2 b3 : Nat) (rest : List Nat) :
    btoa (b1 :: b2 :: b3 :: rest) =
      b64c (b1 / 4) :: b64c (b1 % 4 * 16 + b2 / 16) :: b64c (b2 % 16 * 4 + b3 / 64) ::
        b64c (b3 % 64) :: btoa rest := by
  simp only [btoa, btoaNoPad, List.length_cons, List.cons_append]
  have h : (rest.length + 1 + 1 + 1) % 3 = rest.length % 3 := by omega
  rw [h]

theorem btoa_length_mod4 (bytes : List Nat) : (btoa bytes).length % 4 = 0 := by
  induction bytes using sextetsOf.induct with
  | case1 => rfl
  | case2 b1 => simp [btoa, btoaNoPad, b64Pad]
  | case3 b1 b2 => simp [btoa, btoaNoPad, b64Pad]
  | case4 b1 b2 b3 rest ih =>
    rw [btoa_cons3]
    simp only [List.length_cons]
    omega

theorem sextetsOf_length_mod4 (bytes : List Nat) : (sextetsOf bytes).length % 4 ≠ 1 := by
  induction bytes using sextetsOf.induct with
  | case1 => simp [sextetsOf]
  | case2 b1 => simp [sextetsOf]
  | case3 b1 b2 => simp [sextetsOf]
  | case4 b1 b2 b3 rest ih =>
    simp only [sextetsOf, List.length_cons]
    omega

theorem sextetsOf_two_le (bytes : List Nat) (h : bytes ≠ []) :
    2 ≤ (sextetsOf bytes).length := by
  induction bytes using sextetsOf.induct with
  | case1 => simp at h
  | case2 b1 => simp [sextetsOf]
  | case3 b1 b2 => simp [sextetsOf]
  | case4 b1 b2 b3 rest ih =>
    simp only [sextetsOf, List.length_cons]
    omega

theorem btoa_two_le (bytes : List Nat) (h : bytes ≠ []) : 2 ≤ (btoa bytes).length := by
  have h1 := sextetsOf_two_le bytes h
  have h2 := btoaNoPad_length bytes
  unfold btoa
  simp only [List.length_append]
  omega

theorem dropLeadingEq_two_eq (r : Str) : dropLeadingEq ('=' :: '=' :: r) = r := by
  simp [dropLeadingEq]

theorem dropLeadingEq_one_eq (y : Char) (r : Str) (hy : y ≠ '=') :
    dropLeadingEq ('=' :: y :: r) = y :: r := by
  simp [dropLeadingEq, hy]

theorem dropLeadingEq_of_ne (x : Char) (r : Str) (hx : x ≠ '=') :
    dropLeadingEq (x :: r) = x :: r := by
  cases r <;> simp [dropLeadingEq, hx]

theorem dropLeadingEq_cons2 (x y : Char) (r : Str) :
    dropLeadingEq (x :: y :: r) = if x = '=' then (if y = '=' then r else y :: r)
      else x :: y :: r := rfl

theorem dropTrailingEq_append_pad2 (w : Str) : dropTrailingEq (w ++ ['=', '=']) = w := by
  unfold dropTrailingEq
  rw [show (w ++ ['=', '='] : Str).reverse = '=' :: '=' :: w.reverse by simp]
  rw [dropLeadingEq_two_eq, List.reverse_reverse]

theorem dropTrailingEq_append_pad1 (w : Str) (x : Char) (hx : x ≠ '=') :
    dropTrailingEq (w ++ [x, '=']) = w ++ [x] := by
  unfold dropTrailingEq
  rw [show (w ++ [x, '='] : Str).reverse = '=' :: x :: w.reverse by simp]
  rw [dropLeadingEq_one_eq _ _ hx]
  simp

theorem dropTrailingEq_no_pad (w : Str) (x : Char) (hx : x ≠ '=') :
    dropTrailingEq (w ++ [x]) = w ++ [x] := by
  unfold dropTrailingEq
  rw [show (w ++ [x] : Str).reverse = x :: w.reverse by simp]
  rw [dropLeadingEq_of_ne _ _ hx]
  simp

theorem dropTrailingEq_append (g u : Str) (h : 2 ≤ u.length) :
    dropTrailingEq (g ++ u) = g ++ dropTrailingEq u := by
  rcases hru : u.reverse with _ | ⟨q, t⟩
  · exfalso
    rw [List.reverse_eq_nil_iff] at hru
    subst hru
    simp at h
  · rcases hrt : t with _ | ⟨p, w⟩
    · exfalso
      subst hrt
      have hu : u = [q] := by
        have := congrArg List.reverse hru
        simpa using this
      subst hu
      simp at h
    · rw [hrt] at hru
      have hu : u = w.reverse ++ [p, q] := by
        have := congrArg List.reverse hru
        simpa using this
      subst hu
      unfold dropTrailingEq
      rw [show (g ++ (w.reverse ++ [p, q]) : Str).reverse = q :: p :: (w ++ g.reverse) by simp,
        show (w.reverse ++ [p, q] : Str).reverse = q :: p :: w by simp,
        dropLeadingEq_cons2, dropLeadingEq_cons2]
      by_cases hq : q = '='
      · by_cases hp : p = '='
        · simp [hq, hp]
        · simp [hq, hp]
      · simp [hq]

theorem dropTrailingEq_btoa (bytes : List Nat) (h : ∀ b ∈ bytes, b < 256) :
    dropTrailingEq (btoa bytes) = btoaNoPad bytes := by
  induction bytes using sextetsOf.induct with
  | case1 => rfl
  | case2 b1 =>
    have he : btoa [b1] = btoaNoPad [b1] ++ ['=', '='] := by
      simp [btoa, b64Pad]
    rw [he, dropTrailingEq_append_pad2]
  | case3 b1 b2 =>
    have he : btoa [b1, b2] = [b64c (b1 / 4), b64c (b1 % 4 * 16 + b2 / 16)] ++
        [b64c (b2 % 16 * 4), '='] := by
      simp [btoa, btoaNoPad, b64Pad]
    rw [he, dropTrailingEq_append_pad1 _ _ (b64c_ne_eq _ (by omega))]
    simp [btoaNoPad]
  | case4 b1 b2 b3 rest ih =>
    rw [btoa_cons3]
    by_cases hrest : rest = []
    · subst hrest
      have he : (b64c (b1 / 4) :: b64c (b1 % 4 * 16 + b2 / 16) ::
          b64c (b2 % 16 * 4 + b3 / 64) :: b64c (b3 % 64) :: btoa [] : Str)
          = [b64c (b1 / 4), b64c (b1 % 4 * 16 + b2 / 16), b64c (b2 % 16 * 4 + b3 / 64)] ++
            [b64c (b3 % 64)] := by
        simp [btoa, btoaNoPad, b64Pad]
      rw [he, dropTrailingEq_no_pad _ _ (b64c_ne_eq _ (by omega))]
      simp [btoaNoPad, btoa, b64Pad]
    · have hstep : (b64c (b1 / 4) :: b64c (b1 % 4 * 16 + b2 / 16) ::
          b64c (b2 % 16 * 4 + b3 / 64) :: b64c (b3 % 64) :: btoa rest : Str)
          = [b64c (b1 / 4), b64c (b1 % 4 * 16 + b2 / 16), b64c (b2 % 16 * 4 + b3 / 64),
            b64c (b3 % 64)] ++ btoa rest := by simp
      rw [hstep, dropTrailingEq_append _ _ (btoa_two_le rest hrest),
        ih (fun b hb => h b (by simp [hb]))]
      simp [btoaNoPad]

theorem atob_btoa (bytes : List Nat) (h : ∀ b ∈ bytes, b < 256) :
    atob (btoa bytes) = some bytes := by
  unfold atob atobStrip atobClean
  simp only [filter_btoa bytes h]
  rw [if_pos (btoa_length_mod4 bytes), dropTrailingEq_btoa bytes h]
  rw [if_neg (by rw [btoaNoPad_length]; exact sextetsOf_length_mod4 bytes)]
  rw [btoaNoPad_eq_map, mapM_b64Index_map_b64c _ (sextetsOf_lt bytes h)]
  simp [b64Sextets_sextetsOf bytes h]

theorem mem_dropLeadingEq (t : Str) (c : Char) (hc : c ∈ t) (hne : c ≠ '=') :
    c ∈ dropLeadingEq t := by
  rcases t with _ | ⟨x, _ | ⟨y, r⟩⟩
  · simp at hc
  · rw [show dropLeadingEq [x] = if x = '=' then [] else [x] from rfl]
    by_cases hx : x = '='
    · exfalso
      rcases List.mem_singleton.mp hc with rfl
      exact hne hx
    · rw [if_neg hx]
      exact hc
  · rw [dropLeadingEq_cons2]
    by_cases hx : x = '='
    · by_cases hy : y = '='
      · rw [if_pos hx, if_pos hy]
        rcases List.mem_cons.mp hc with h1 | h1
        · exact absurd (h1.trans hx) hne
        · rcases List.mem_cons.mp h1 with h2 | h2
          · exact absurd (h2.trans hy) hne
          · exact h2
      · rw [if_pos hx, if_neg hy]
        rcases List.mem_cons.mp hc with h1 | h1
        · exact absurd (h1.trans hx) hne
        · exact h1
    · rw [if_neg hx]
      exact hc

theorem mapM_b64Index_none (l : Str) (c : Char) (hc : c ∈ l) (h : b64Index c = none) :
    l.mapM b64Index = none := by
  induction l with
  | nil => simp at hc
  | cons x r ih =>
    simp only [List.mapM_cons]
    rcases List.mem_cons.mp hc with h1 | h1
    · rw [← h1, h]
      rfl
    · cases hx : b64Index x
      · rfl
      · rw [ih h1]
        rfl

theorem atobClean_none_of_hash (t : Str) (h : '#' ∈ t) : atobClean t = none := by
  unfold atobClean
  split
  · rfl
  · rw [mapM_b64Index_none t '#' h (by decide)]

theorem atob_none_of_hash (s : Str) (h : '#' ∈ s) : atob s = none := by
  unfold atob
  have hmem0 : '#' ∈ s.filter (fun c => !isB64Ws c) := by
    rw [List.mem_filter]
    exact ⟨h, by decide⟩
  apply atobClean_none_of_hash
  unfold atobStrip
  split
  · unfold dropTrailingEq
    rw [List.mem_reverse]
    exact mem_dropLeadingEq _ _ (by rw [List.mem_reverse]; exact hmem0) (by decide)
  · exact hmem0

/-! ## Percent-encoding: `encodeURIComponent` / `decodeURIComponent` -/

/-- Characters left unescaped by `encodeURIComponent` (ECMA-262 uriUnescaped). -/
def isUnreservedURI (c : Char) : Bool :=
  ('A' ≤ c && c ≤ 'Z') || ('a' ≤ c && c ≤ 'z') || ('0' ≤ c && c ≤ '9') ||
  c = '-' || c = '_' || c = '.' || c = '!' || c = '~' || c = '*' || c = '\'' ||
  c = '(' || c = ')'

def pctEncodeByte (b : Nat) : Str :=
  ['%', hexDigitUpper (b / 16), hexDigitUpper (b % 16)]

/-- Model of `encodeURIComponent`. -/
def encodeURIComponent (s : Str) : Str :=
  (s.map (fun c =>
    if isUnreservedURI c then [c] else ((utf8EncodeChar c).map pctEncodeByte).flatten)).flatten

/-- Percent-unescaping: each `%XX` contributes the byte `XX`; any other
character contributes its own UTF-8 bytes. `none` models a `URIError`. -/
def pctBytes? : Str → Option (List Nat)
  | [] => some []
  | c :: rest =>
    if c = '%' then
      if 2 ≤ rest.length then
        (hexVal? (rest.getD 0 ' ')).bind (fun ha =>
          (hexVal? (rest.getD 1 ' ')).bind (fun hb =>
            (pctBytes? (rest.drop 2)).map (fun t => (ha * 16 + hb) :: t)))
      else none
    else (pctBytes? rest).map (fun t => utf8EncodeChar c ++ t)
termination_by l => l.length
decreasing_by
  all_goals (simp [List.length_drop]; try omega)

/-- Model of `decodeURIComponent`; `none` models a thrown `URIError`. -/
def decodeURIComponent (s : Str) : Option Str :=
  (pctBytes? s).bind utf8Decode?

theorem hexVal?_hexDigitUpper : ∀ d, d < 16 → hexVal? (hexDigitUpper d) = some d := by decide

theorem unreserved_ne_pct (c : Char) (h : isUnreservedURI c = true) : c ≠ '%' := by
  intro hc
  subst hc
  exact absurd h (by decide)

theorem pctBytes?_encBytes (bs : List Nat) (h : ∀ b ∈ bs, b < 256) (rest : Str) :
    pctBytes? ((bs.map pctEncodeByte).flatten ++ rest)
      = (pctBytes? rest).map (fun t => bs ++ t) := by
  induction bs with
  | nil =>
    simp only [List.map_nil, List.flatten_nil, List.nil_append]
    cases hr : pctBytes? rest <;> simp
  | cons b bs ih =>
    have hb : b < 256 := h b (by simp)
    have harg : ((b :: bs).map pctEncodeByte).flatten ++ rest
        = '%' :: hexDigitUpper (b / 16) :: hexDigitUpper (b % 16) ::
          ((bs.map pctEncodeByte).flatten ++ rest) := by
      simp [pctEncodeByte]
    rw [harg, pctBytes?]
    rw [if_pos rfl, if_pos (by simp), getD0_cons, getD1_cons, drop2_cons]
    rw [hexVal?_hexDigitUpper (b / 16) (by omega), hexVal?_hexDigitUpper (b % 16) (by omega)]
    simp only [Option.some_bind]
    rw [ih (fun x hx => h x (by simp [hx]))]
    have hval : b / 16 * 16 + b % 16 = b := by omega
    cases hr : pctBytes? rest <;> simp [hval]

theorem pctBytes?_encodeURIComponent_append (s : Str) (rest : Str) :
    pctBytes? (encodeURIComponent s ++ rest)
      = (pctBytes? rest).map (fun t => utf8Encode s ++ t) := by
  induction s with
  | nil =>
    simp only [encodeURIComponent, List.map_nil, List.flatten_nil, List.nil_append]
    cases hr : pctBytes? rest <;> simp [utf8Encode]
  | cons c cs ih =>
    have harg : encodeURIComponent (c :: cs) ++ rest
        = (if isUnreservedURI c then [c]
            else ((utf8EncodeChar c).map pctEncodeByte).flatten) ++
          (encodeURIComponent cs ++ rest) := by
      simp [encodeURIComponent]
    rw [harg]
    by_cases hc : isUnreservedURI c
    · rw [if_pos hc]
      rw [show ([c] ++ (encodeURIComponent cs ++ rest) : Str)
        = c :: (encodeURIComponent cs ++ rest) by simp]
      rw [pctBytes?, if_neg (unreserved_ne_pct c hc), ih]
      cases hr : pctBytes? rest <;> simp [utf8Encode]
    · rw [if_neg hc, pctBytes?_encBytes (utf8EncodeChar c) (utf8EncodeChar_lt c), ih]
      cases hr : pctBytes? rest <;> simp [utf8Encode]

theorem decodeURIComponent_encodeURIComponent (s : Str) :
    decodeURIComponent (encodeURIComponent s) = some s := by
  unfold decodeURIComponent
  have h := pctBytes?_encodeURIComponent_append s []
  rw [List.append_nil] at h
  rw [h]
  simp [pctBytes?, utf8Decode?_encode]

theorem hexDigitUpper_ne_hash : ∀ d, d < 16 → hexDigitUpper d ≠ '#' := by decide

theorem hash_not_mem_encodeURIComponent (s : Str) : '#' ∉ encodeURIComponent s := by
  intro h
  unfold encodeURIComponent at h
  rw [List.mem_flatten] at h
  obtain ⟨chunk, hchunk, hmem⟩ := h
  rw [List.mem_map] at hchunk
  obtain ⟨c, hc, rfl⟩ := hchunk
  by_cases hu : isUnreservedURI c
  · rw [if_pos hu] at hmem
    rcases List.mem_singleton.mp hmem with rfl
    exact absurd hu (by decide)
  · rw [if_neg hu] at hmem
    rw [List.mem_flatten] at hmem
    obtain ⟨piece, hpiece, hmem2⟩ := hmem
    rw [List.mem_map] at hpiece
    obtain ⟨b, hb, rfl⟩ := hpiece
    have hblt : b < 256 := utf8EncodeChar_lt c b hb
    unfold pctEncodeByte at hmem2
    rcases List.mem_cons.mp hmem2 with h1 | hmem3
    · exact absurd h1 (by decide)
    · rcases List.mem_cons.mp hmem3 with h1 | hmem4
      · exact absurd h1.symm (hexDigitUpper_ne_hash (b / 16) (by omega))
      · rcases List.mem_cons.mp hmem4 with h1 | hmem5
        · exact absurd h1.symm (hexDigitUpper_ne_hash (b % 16) (by omega))
        · simp at hmem5

/-! ## JSON: models of `JSON.parse` and `JSON.stringify`

Numbers are modelled as decimal integers (the vmess payload fields the code
touches are ports, ids and version strings); inputs with fractional or
exponent parts, and string literals containing lone surrogate escapes, are
treated as unparseable, which routes them into the code's catch/fallback
paths. Object fields keep their textual order, as `JSON.parse` keeps
insertion order. -/

inductive JVal : Type where
  | jnull : JVal
  | jbool : Bool → JVal
  | jnum : Int → JVal
  | jstr : Str → JVal
  | jarr : List JVal → JVal
  | jobj : List (Str × JVal) → JVal

def natToStr (n : Nat) : Str :=
  if n < 10 then [Char.ofNat (48 + n)]
  else natToStr (n / 10) ++ [Char.ofNat (48 + n % 10)]
termination_by n
decreasing_by exact Nat.div_lt_self (by omega) (by omega)

def intToStr (i : Int) : Str :=
  if i < 0 then '-' :: natToStr i.natAbs else natToStr i.toNat

def jsonEscapeChar (c : Char) : Str :=
  if c = '"' then ['\\', '"']
  else if c = '\\' then ['\\', '\\']
  else if c = '\x08' then ['\\', 'b']
  else if c = '\x09' then ['\\', 't']
  else if c = '\x0a' then ['\\', 'n']
  else if c = '\x0c' then ['\\', 'f']
  else if c = '\x0d' then ['\\', 'r']
  else if c.toNat < 0x20 then
    ['\\', 'u', '0', '0', hexDigitLower (c.toNat / 16), hexDigitLower (c.toNat % 16)]
  else [c]

def jsonQuote (s : Str) : Str :=
  '"' :: ((s.map jsonEscapeChar).flatten ++ ['"'])

mutual

def stringify : JVal → Str
  | .jnull => "null".data
  | .jbool true => "true".data
  | .jbool false => "false".data
  | .jnum i => intToStr i
  | .jstr s => jsonQuote s
  | .jarr xs => '[' :: (stringifyElems xs ++ [']'])
  | .jobj fs => '\x7b' :: (stringifyFields fs ++ ['\x7d'])

def stringifyElems : List JVal → Str
  | [] => []
  | [v] => stringify v
  | v :: w :: rest => stringify v ++ ',' :: stringifyElems (w :: rest)

def stringifyFields : List (Str × JVal) → Str
  | [] => []
  | [(k, v)] => jsonQuote k ++ ':' :: stringify v
  | (k, v) :: f :: rest =>
    jsonQuote k ++ ':' :: stringify v ++ ',' :: stringifyFields (f :: rest)

end

/-! ### The parser -/

def isJsonWs (c : Char) : Bool := c = ' ' || c = '\t' || c = '\n' || c = '\r'

def skipWs (s : Str) : Str := s.dropWhile isJsonWs

def isDigitChar (c : Char) : Bool := 48 ≤ c.toNat && c.toNat ≤ 57

def digitsVal (ds : Str) : Nat := ds.foldl (fun a c => a * 10 + (c.toNat - 48)) 0

/-- Unsigned part of the JSON number grammar: digits with no redundant
leading zero. -/
def parseNumCore (s1 : Str) : Option (Nat × Str) :=
  if s1.takeWhile isDigitChar = [] then none
  else if (s1.takeWhile isDigitChar).getD 0 ' ' = '0' ∧
      1 < (s1.takeWhile isDigitChar).length then none
  else some (digitsVal (s1.takeWhile isDigitChar), s1.dropWhile isDigitChar)

/-- JSON number parsing, restricted to the integer grammar (an optional minus
sign and digits with no redundant leading zero). -/
def parseNumber (s : Str) : Option (Int × Str) :=
  if s.getD 0 ' ' = '-' then
    (parseNumCore (s.drop 1)).map (fun p => (-(p.1 : Int), p.2))
  else
    (parseNumCore s).map (fun p => ((p.1 : Int), p.2))

def hex4Val? (a b c d : Char) : Option Nat :=
  (hexVal? a).bind fun va =>
    (hexVal? b).bind fun vb =>
      (hexVal? c).bind fun vc =>
        (hexVal? d).map fun vd => va * 4096 + vb * 256 + vc * 16 + vd

/-- JSON string-literal body parser: consumes up to and including the closing
quote, decoding escapes; `\uXXXX` surrogate pairs are combined, lone
surrogates rejected. -/
def parseStringRest : Str → Option (Str × Str)
  | [] => none
  | c :: r =>
    if c = '"' then some ([], r)
    else if c = '\\' then
      let e := r.getD 0 ' '
      if e = '"' ∨ e = '\\' ∨ e = '/' then
        (parseStringRest (r.drop 1)).map (fun p => (e :: p.1, p.2))
      else if e = 'b' then (parseStringRest (r.drop 1)).map (fun p => ('\x08' :: p.1, p.2))
      else if e = 't' then (parseStringRest (r.drop 1)).map (fun p => ('\x09' :: p.1, p.2))
      else if e = 'n' then (parseStringRest (r.drop 1)).map (fun p => ('\x0a' :: p.1, p.2))
      else if e = 'f' then (parseStringRest (r.drop 1)).map (fun p => ('\x0c' :: p.1, p.2))
      else if e = 'r' then (parseStringRest (r.drop 1)).map (fun p => ('\x0d' :: p.1, p.2))
      else if e = 'u' then
        match hex4Val? (r.getD 1 ' ') (r.getD 2 ' ') (r.getD 3 ' ') (r.getD 4 ' ') with
        | none => none
        | some n =>
          if n < 0xd800 ∨ 0xdfff < n then
            (parseStringRest (r.drop 5)).map (fun p => (Char.ofNat n :: p.1, p.2))
          else if n ≤ 0xdbff then
            if r.getD 5 ' ' = '\\' ∧ r.getD 6 ' ' = 'u' then
              match hex4Val? (r.getD 7 ' ') (r.getD 8 ' ') (r.getD 9 ' ') (r.getD 10 ' ') with
              | some m =>
                if 0xdc00 ≤ m ∧ m ≤ 0xdfff then
                  (parseStringRest (r.drop 11)).map
                    (fun p =>
                      (Char.ofNat (0x10000 + (n - 0xd800) * 1024 + (m - 0xdc00)) :: p.1, p.2))
                else none
              | none => none
            else none
          else none
      else none
    else if c.toNat < 0x20 then none
    else (parseStringRest r).map (fun p => (c :: p.1, p.2))
termination_by l => l.length
decreasing_by
  all_goals (simp [List.length_drop]; try omega)

mutual

def parseVal : Nat → Str → Option (JVal × Str)
  | 0, _ => none
  | fuel + 1, s0 =>
    let s := skipWs s0
    if "null".data.isPrefixOf s then some (.jnull, s.drop 4)
    else if "true".data.isPrefixOf s then some (.jbool true, s.drop 4)
    else if "false".data.isPrefixOf s then some (.jbool false, s.drop 5)
    else if s.getD 0 ' ' = '"' then
      (parseStringRest (s.drop 1)).map (fun p => (.jstr p.1, p.2))
    else if s.getD 0 ' ' = '[' then
      if (skipWs (s.drop 1)).getD 0 ' ' = ']' then some (.jarr [], (skipWs (s.drop 1)).drop 1)
      else (parseElems fuel (s.drop 1)).map (fun p => (.jarr p.1, p.2))
    else if s.getD 0 ' ' = '\x7b' then
      if (skipWs (s.drop 1)).getD 0 ' ' = '\x7d' then
        some (.jobj [], (skipWs (s.drop 1)).drop 1)
      else (parseFields fuel (s.drop 1)).map (fun p => (.jobj p.1, p.2))
    else if s.getD 0 ' ' = '-' ∨ isDigitChar (s.getD 0 ' ') then
      (parseNumber s).map (fun p => (.jnum p.1, p.2))
    else none

def parseElems : Nat → Str → Option (List JVal × Str)
  | 0, _ => none
  | fuel + 1, s =>
    (parseVal fuel s).bind fun p =>
      if (skipWs p.2).getD 0 ' ' = ',' then
        (parseElems fuel ((skipWs p.2).drop 1)).map (fun q => (p.1 :: q.1, q.2))
      else if (skipWs p.2).getD 0 ' ' = ']' then some ([p.1], (skipWs p.2).drop 1)
      else none

def parseFields : Nat → Str → Option (List (Str × JVal) × Str)
  | 0, _ => none
  | fuel + 1, s =>
    if (skipWs s).getD 0 ' ' = '"' then
      (parseStringRest ((skipWs s).drop 1)).bind fun kp =>
        if (skipWs kp.2).getD 0 ' ' = ':' then
          (parseVal fuel ((skipWs kp.2).drop 1)).bind fun vp =>
            if (skipWs vp.2).getD 0 ' ' = ',' then
              (parseFields fuel ((skipWs vp.2).drop 1)).map
                (fun q => ((kp.1, vp.1) :: q.1, q.2))
            else if (skipWs vp.2).getD 0 ' ' = '\x7d' then
              some ([(kp.1, vp.1)], (skipWs vp.2).drop 1)
            else none
        else none
    else none

end

/-- Model of `JSON.parse`; `none` models a thrown `SyntaxError`. -/
def jsonParse (s : Str) : Option JVal :=
  match parseVal (s.length + 1) s with
  | some (v, rest) => if skipWs rest = [] then some v else none
  | none => none

/-! ### Round-trip: `jsonParse (stringify v) = some v` -/

theorem charOfNat_toNat (n : Nat) (h : n < 0xd800) : (Char.ofNat n).toNat = n := by
  unfold Char.ofNat
  rw [dif_pos (Or.inl h)]
  rfl

theorem natToStr_digits (n : Nat) : ∀ c ∈ natToStr n, isDigitChar c = true := by
  induction n using natToStr.induct with
  | case1 n h =>
    intro c hc
    rw [natToStr, if_pos h] at hc
    rcases List.mem_singleton.mp hc with rfl
    simp [isDigitChar, charOfNat_toNat (48 + n) (by omega)]
    omega
  | case2 n h ih =>
    intro c hc
    rw [natToStr, if_neg h] at hc
    rcases List.mem_append.mp hc with h1 | h1
    · exact ih c h1
    · rcases List.mem_singleton.mp h1 with rfl
      have : n % 10 < 10 := by omega
      simp [isDigitChar, charOfNat_toNat (48 + n % 10) (by omega)]
      omega

theorem natToStr_ne_nil (n : Nat) : natToStr n ≠ [] := by
  rw [natToStr]
  split
  · simp
  · simp

theorem digitsVal_append_digit (a : Str) (c : Char) :
    digitsVal (a ++ [c]) = digitsVal a * 10 + (c.toNat - 48) := by
  unfold digitsVal
  rw [List.foldl_append]
  rfl

theorem digitsVal_natToStr (n : Nat) : digitsVal (natToStr n) = n := by
  induction n using natToStr.induct with
  | case1 n h =>
    rw [natToStr, if_pos h]
    show digitsVal [Char.ofNat (48 + n)] = n
    unfold digitsVal
    simp [charOfNat_toNat (48 + n) (by omega)]
  | case2 n h ih =>
    rw [natToStr, if_neg h, digitsVal_append_digit, ih,
      charOfNat_toNat (48 + n % 10) (by omega)]
    omega

theorem natToStr_head_ne_zero (n : Nat) (h : 1 ≤ n) :
    (natToStr n).getD 0 ' ' ≠ '0' := by
  induction n using natToStr.induct with
  | case1 n hlt =>
    rw [natToStr, if_pos hlt]
    intro hc
    rw [getD0_cons] at hc
    have := congrArg Char.toNat hc
    rw [charOfNat_toNat (48 + n) (by omega)] at this
    have h0 : ('0' : Char).toNat = 48 := by decide
    omega
  | case2 n hlt ih =>
    rw [natToStr, if_neg hlt]
    have hne := natToStr_ne_nil (n / 10)
    rcases hh : natToStr (n / 10) with _ | ⟨c, t⟩
    · exact absurd hh hne
    · have := ih (by omega)
      rw [hh] at this
      simpa using this

theorem natToStr_no_leading_zero (n : Nat) :
    ¬ ((natToStr n).getD 0 ' ' = '0' ∧ 1 < (natToStr n).length) := by
  rintro ⟨h1, h2⟩
  by_cases hn : n < 10
  · rw [natToStr, if_pos hn] at h2
    simp at h2
  · exact natToStr_head_ne_zero n (by omega) h1

/-- Trailing contexts in which a serialized value can legally stop. -/
def Delim (rest : Str) : Prop :=
  rest = [] ∨ (rest.getD 0 ' ' = ',' ∨ rest.getD 0 ' ' = ']' ∨ rest.getD 0 ' ' = '\x7d')

theorem delim_head_not_digit (rest : Str) (h : Delim rest) :
    ∀ c t, rest = c :: t → isDigitChar c = false := by
  intro c t hrest
  subst hrest
  rcases h with h | h
  · simp at h
  · rw [getD0_cons] at h
    rcases h with rfl | rfl | rfl <;> decide

theorem takeWhile_all_append (p : Char → Bool) (ds rest : Str)
    (hds : ∀ c ∈ ds, p c = true) (hrest : ∀ c t, rest = c :: t → p c = false) :
    (ds ++ rest).takeWhile p = ds ∧ (ds ++ rest).dropWhile p = rest := by
  induction ds with
  | nil =>
    simp only [List.nil_append]
    cases rest with
    | nil => simp
    | cons c t =>
      have := hrest c t rfl
      simp [List.takeWhile_cons, List.dropWhile_cons, this]
  | cons d ds ih =>
    have hd : p d = true := hds d (by simp)
    have ⟨h1, h2⟩ := ih (fun c hc => hds c (by simp [hc]))
    simp [List.takeWhile_cons, List.dropWhile_cons, hd, h1, h2]

theorem parseNumCore_natToStr (n : Nat) (rest : Str) (hrest : Delim rest) :
    parseNumCore (natToStr n ++ rest) = some (n, rest) := by
  unfold parseNumCore
  have ⟨ht, hd⟩ := takeWhile_all_append isDigitChar (natToStr n) rest
    (natToStr_digits n) (delim_head_not_digit rest hrest)
  rw [ht, hd]
  rw [if_neg (by simpa using natToStr_ne_nil n), if_neg (natToStr_no_leading_zero n),
    digitsVal_natToStr]

theorem natToStr_head_not_minus (n : Nat) (rest : Str) :
    (natToStr n ++ rest).getD 0 ' ' ≠ '-' := by
  have hne := natToStr_ne_nil n
  rcases hh : natToStr n with _ | ⟨c, t⟩
  · exact absurd hh hne
  · have hc : isDigitChar c = true := natToStr_digits n c (by rw [hh]; simp)
    simp only [List.cons_append, getD0_cons]
    intro he
    subst he
    exact absurd hc (by decide)

theorem drop5_cons {α : Type} (a b c d e : α) (l : List α) :
    (a :: b :: c :: d :: e :: l).drop 5 = l := rfl

theorem hexVal?_hexDigitLower : ∀ d, d < 16 → hexVal? (hexDigitLower d) = some d := by decide

theorem parseStringRest_escape (s rest : Str) :
    parseStringRest ((s.map jsonEscapeChar).flatten ++ '"' :: rest) = some (s, rest) := by
  induction s with
  | nil =>
    simp only [List.map_nil, List.flatten_nil, List.nil_append]
    rw [parseStringRest, if_pos rfl]
  | cons c cs ih =>
    have harg : ((c :: cs).map jsonEscapeChar).flatten ++ '"' :: rest
        = jsonEscapeChar c ++ ((cs.map jsonEscapeChar).flatten ++ '"' :: rest) := by simp
    rw [harg]
    by_cases h1 : c = '"'
    · subst h1
      rw [show jsonEscapeChar '"' = ['\\', '"'] from rfl]
      simp [parseStringRest, ih]
    · by_cases h2 : c = '\\'
      · subst h2
        rw [show jsonEscapeChar '\\' = ['\\', '\\'] from rfl]
        simp [parseStringRest, ih]
      · by_cases h3 : c = '\x08'
        · subst h3
          rw [show jsonEscapeChar '\x08' = ['\\', 'b'] from rfl]
          simp [parseStringRest, ih]
        · by_cases h4 : c = '\x09'
          · subst h4
            rw [show jsonEscapeChar '\x09' = ['\\', 't'] from rfl]
            simp [parseStringRest, ih]
          · by_cases h5 : c = '\x0a'
            · subst h5
              rw [show jsonEscapeChar '\x0a' = ['\\', 'n'] from rfl]
              simp [parseStringRest, ih]
            · by_cases h6 : c = '\x0c'
              · subst h6
                rw [show jsonEscapeChar '\x0c' = ['\\', 'f'] from rfl]
                simp [parseStringRest, ih]
              · by_cases h7 : c = '\x0d'
                · subst h7
                  rw [show jsonEscapeChar '\x0d' = ['\\', 'r'] from rfl]
                  simp [parseStringRest, ih]
                · by_cases h8 : c.toNat < 0x20
                  · rw [show jsonEscapeChar c = ['\\', 'u', '0', '0',
                      hexDigitLower (c.toNat / 16), hexDigitLower (c.toNat % 16)] from by
                        unfold jsonEscapeChar
                        rw [if_neg h1, if_neg h2, if_neg h3, if_neg h4, if_neg h5, if_neg h6,
                          if_neg h7, if_pos h8]]
                    have e0 : hexVal? '0' = some 0 := by decide
                    have e1 : hexVal? (hexDigitLower (c.toNat / 16)) = some (c.toNat / 16) :=
                      hexVal?_hexDigitLower _ (by omega)
                    have e2 : hexVal? (hexDigitLower (c.toNat % 16)) = some (c.toNat % 16) :=
                      hexVal?_hexDigitLower _ (by omega)
                    have hval : c.toNat / 16 * 16 + c.toNat % 16 = c.toNat := by omega
                    have hlt : c.toNat < 55296 := by omega
                    simp [parseStringRest, hex4Val?, e0, e1, e2, hval, hlt, ih,
                      Char.ofNat_toNat]
                  · rw [show jsonEscapeChar c = [c] from by
                      unfold jsonEscapeChar
                      rw [if_neg h1, if_neg h2, if_neg h3, if_neg h4, if_neg h5, if_neg h6,
                        if_neg h7, if_neg h8]]
                    simp only [List.cons_append, List.nil_append, parseStringRest]
                    rw [if_neg h1, if_neg h2, if_neg h8, ih]
                    rfl

theorem parseNumber_intToStr (i : Int) (rest : Str) (hrest : Delim rest) :
    parseNumber (intToStr i ++ rest) = some (i, rest) := by
  unfold parseNumber intToStr
  by_cases hneg : i < 0
  · rw [if_pos hneg]
    have harg : ('-' :: natToStr i.natAbs) ++ rest = '-' :: (natToStr i.natAbs ++ rest) := by
      simp
    rw [harg, getD0_cons, if_pos rfl, drop1_cons, parseNumCore_natToStr i.natAbs rest hrest]
    have hv : -((i.natAbs : Nat) : Int) = i := by omega
    rw [show (some ((i.natAbs : Nat), rest) : Option (Nat × Str)).map
      (fun p => (-(p.1 : Int), p.2)) = some (-((i.natAbs : Nat) : Int), rest) from rfl, hv]
  · rw [if_neg hneg, if_neg (natToStr_head_not_minus i.toNat rest),
      parseNumCore_natToStr i.toNat rest hrest]
    have hv : ((i.toNat : Nat) : Int) = i := by omega
    rw [show (some ((i.toNat : Nat), rest) : Option (Nat × Str)).map
      (fun p => ((p.1 : Int), p.2)) = some (((i.toNat : Nat) : Int), rest) from rfl, hv]

/-! ### Dispatch helpers for the main round-trip -/

/-- First characters a serialized JSON value can have; none of them is
whitespace or a closing delimiter, which keeps the parser's dispatch
deterministic. -/
def GoodHead (c : Char) : Prop :=
  isJsonWs c = false ∧ c ≠ ']' ∧ c ≠ '\x7d' ∧ c ≠ ',' ∧ c ≠ ':'

instance (c : Char) : Decidable (GoodHead c) := by unfold GoodHead; infer_instance

theorem digit_goodHead (c : Char) (h : isDigitChar c = true) : GoodHead c := by
  have hb : 48 ≤ c.toNat ∧ c.toNat ≤ 57 := by simpa [isDigitChar] using h
  refine ⟨?_, ?_, ?_, ?_, ?_⟩
  · by_contra hws
    rw [Bool.not_eq_false] at hws
    simp [isJsonWs] at hws
    rcases hws with ((h1 | h1) | h1) | h1
    · subst h1; exact absurd hb (by decide)
    · subst h1; exact absurd hb (by decide)
    · subst h1; exact absurd hb (by decide)
    · subst h1; exact absurd hb (by decide)
  · intro h1; rw [h1] at hb; exact absurd hb (by decide)
  · intro h1; rw [h1] at hb; exact absurd hb (by decide)
  · intro h1; rw [h1] at hb; exact absurd hb (by decide)
  · intro h1; rw [h1] at hb; exact absurd hb (by decide)

theorem digit_ne_keyword (c : Char) (h : isDigitChar c = true) :
    c ≠ 'n' ∧ c ≠ 't' ∧ c ≠ 'f' ∧ c ≠ '"' ∧ c ≠ '[' ∧ c ≠ '\x7b' := by
  have hb : 48 ≤ c.toNat ∧ c.toNat ≤ 57 := by simpa [isDigitChar] using h
  refine ⟨?_, ?_, ?_, ?_, ?_, ?_⟩ <;>
    (intro h1; rw [h1] at hb; exact absurd hb (by decide))

theorem natToStr_cons (n : Nat) :
    ∃ c t, natToStr n = c :: t ∧ isDigitChar c = true := by
  rcases hh : natToStr n with _ | ⟨c, t⟩
  · exact absurd hh (natToStr_ne_nil n)
  · exact ⟨c, t, rfl, natToStr_digits n c (by rw [hh]; simp)⟩

theorem intToStr_cons (i : Int) :
    ∃ c t, intToStr i = c :: t ∧ (c = '-' ∨ isDigitChar c = true) := by
  unfold intToStr
  by_cases hneg : i < 0
  · rw [if_pos hneg]
    exact ⟨'-', natToStr i.natAbs, rfl, Or.inl rfl⟩
  · rw [if_neg hneg]
    obtain ⟨c, t, h1, h2⟩ := natToStr_cons i.toNat
    exact ⟨c, t, h1, Or.inr h2⟩

theorem stringify_cons (v : JVal) : ∃ c t, stringify v = c :: t ∧ GoodHead c := by
  cases v with
  | jnull => exact ⟨'n', "ull".data, rfl, by decide⟩
  | jbool b =>
    cases b with
    | true => exact ⟨'t', "rue".data, rfl, by decide⟩
    | false => exact ⟨'f', "alse".data, rfl, by decide⟩
  | jnum i =>
    obtain ⟨c, t, h1, h2⟩ := intToStr_cons i
    refine ⟨c, t, h1, ?_⟩
    rcases h2 with rfl | h2
    · decide
    · exact digit_goodHead c h2
  | jstr s => exact ⟨'"', _, rfl, by decide⟩
  | jarr xs => exact ⟨'[', _, rfl, by decide⟩
  | jobj fs => exact ⟨'\x7b', _, rfl, by decide⟩

theorem stringify_length_pos (v : JVal) : 1 ≤ (stringify v).length := by
  obtain ⟨c, t, h1, _⟩ := stringify_cons v
  rw [h1]
  simp

theorem skipWs_cons_not (c : Char) (t : Str) (h : isJsonWs c = false) :
    skipWs (c :: t) = c :: t := by
  simp [skipWs, List.dropWhile_cons, h]

theorem isPrefixOf_append_self (p rest : Str) : p.isPrefixOf (p ++ rest) = true := by
  induction p with
  | nil => simp [List.isPrefixOf]
  | cons a as ih => simp [List.isPrefixOf, ih]

theorem isPrefixOf_cons_ne (a b : Char) (as bs : Str) (h : b ≠ a) :
    (a :: as).isPrefixOf (b :: bs) = false := by
  simp [List.isPrefixOf]
  intro h1
  exact absurd h1.symm h

theorem not_prefix_of_head_ne (a b : Char) (as bs : Str) (h : b ≠ a) :
    ¬ (a :: as <+: b :: bs) := by
  rintro ⟨w, hw⟩
  rw [List.cons_append] at hw
  have := (List.cons.injEq a (as ++ w) b bs).mp hw
  exact h this.1.symm

theorem delim_nil : Delim [] := Or.inl rfl

theorem delim_comma (t : Str) : Delim (',' :: t) := Or.inr (Or.inl rfl)

theorem delim_rbracket (t : Str) : Delim (']' :: t) := Or.inr (Or.inr (Or.inl rfl))

theorem delim_rbrace (t : Str) : Delim ('\x7d' :: t) := Or.inr (Or.inr (Or.inr rfl))

/-! ### Fuel accounting for the parser -/

mutual

def fuelNeed : JVal → Nat
  | .jarr [] => 1
  | .jarr (x :: xs) => 1 + fuelNeedElems (x :: xs)
  | .jobj [] => 1
  | .jobj (f :: fs) => 1 + fuelNeedFields (f :: fs)
  | _ => 1

def fuelNeedElems : List JVal → Nat
  | [] => 1
  | x :: xs => 1 + max (fuelNeed x) (fuelNeedElems xs)

def fuelNeedFields : List (Str × JVal) → Nat
  | [] => 1
  | f :: fs => 1 + max (fuelNeed f.2) (fuelNeedFields fs)

end

theorem one_le_fuelNeed (v : JVal) : 1 ≤ fuelNeed v := by
  cases v with
  | jarr xs => cases xs <;> simp [fuelNeed]
  | jobj fs => cases fs <;> simp [fuelNeed]
  | jnull => simp [fuelNeed]
  | jbool b => simp [fuelNeed]
  | jnum i => simp [fuelNeed]
  | jstr s => simp [fuelNeed]

theorem one_le_fuelNeedElems (xs : List JVal) : 1 ≤ fuelNeedElems xs := by
  cases xs <;> simp [fuelNeedElems]

theorem one_le_fuelNeedFields (fs : List (Str × JVal)) : 1 ≤ fuelNeedFields fs := by
  cases fs <;> simp [fuelNeedFields]

mutual

theorem parseVal_stringify (v : JVal) (fuel : Nat) (rest : Str)
    (hfuel : fuelNeed v ≤ fuel) (hrest : Delim rest) :
    parseVal fuel (stringify v ++ rest) = some (v, rest) := by
  obtain ⟨f, rfl⟩ : ∃ f, fuel = f + 1 :=
    ⟨fuel - 1, by have := one_le_fuelNeed v; omega⟩
  cases v with
  | jnull =>
    have hsw : skipWs ('n' :: 'u' :: 'l' :: 'l' :: rest) = 'n' :: 'u' :: 'l' :: 'l' :: rest :=
      skipWs_cons_not _ _ (by decide)
    have hp : (['n', 'u', 'l', 'l'] : Str) <+: 'n' :: 'u' :: 'l' :: 'l' :: rest :=
      List.prefix_append ['n', 'u', 'l', 'l'] rest
    show parseVal (f + 1) ("null".data ++ rest) = some (.jnull, rest)
    simp [parseVal, hsw, hp]
  | jbool b =>
    cases b with
    | true =>
      have hsw : skipWs ('t' :: 'r' :: 'u' :: 'e' :: rest)
          = 't' :: 'r' :: 'u' :: 'e' :: rest := skipWs_cons_not _ _ (by decide)
      have hp : (['t', 'r', 'u', 'e'] : Str) <+: 't' :: 'r' :: 'u' :: 'e' :: rest :=
        List.prefix_append ['t', 'r', 'u', 'e'] rest
      have hnp1 : ¬ ((['n', 'u', 'l', 'l'] : Str) <+: 't' :: 'r' :: 'u' :: 'e' :: rest) :=
        not_prefix_of_head_ne 'n' 't' _ _ (by decide)
      show parseVal (f + 1) ("true".data ++ rest) = some (.jbool true, rest)
      simp [parseVal, hsw, hp, hnp1]
    | false =>
      have hsw : skipWs ('f' :: 'a' :: 'l' :: 's' :: 'e' :: rest)
          = 'f' :: 'a' :: 'l' :: 's' :: 'e' :: rest := skipWs_cons_not _ _ (by decide)
      have hp : (['f', 'a', 'l', 's', 'e'] : Str) <+: 'f' :: 'a' :: 'l' :: 's' :: 'e' :: rest :=
        List.prefix_append ['f', 'a', 'l', 's', 'e'] rest
      have hnp1 : ¬ ((['n', 'u', 'l', 'l'] : Str) <+:
          'f' :: 'a' :: 'l' :: 's' :: 'e' :: rest) :=
        not_prefix_of_head_ne 'n' 'f' _ _ (by decide)
      have hnp2 : ¬ ((['t', 'r', 'u', 'e'] : Str) <+:
          'f' :: 'a' :: 'l' :: 's' :: 'e' :: rest) :=
        not_prefix_of_head_ne 't' 'f' _ _ (by decide)
      show parseVal (f + 1) ("false".data ++ rest) = some (.jbool false, rest)
      simp [parseVal, hsw, hp, hnp1, hnp2]
  | jnum i =>
    obtain ⟨c, t, hst, hcd⟩ := intToStr_cons i
    have hgh : GoodHead c := by
      rcases hcd with rfl | hd
      · decide
      · exact digit_goodHead c hd
    have harg : stringify (.jnum i) ++ rest = c :: (t ++ rest) := by
      show intToStr i ++ rest = c :: (t ++ rest)
      rw [hst]
      simp
    have hpn : parseNumber (c :: (t ++ rest)) = some (i, rest) := by
      rw [show (c :: (t ++ rest) : Str) = intToStr i ++ rest from by rw [hst]; simp]
      exact parseNumber_intToStr i rest hrest
    have hkw : c ≠ 'n' ∧ c ≠ 't' ∧ c ≠ 'f' ∧ c ≠ '"' ∧ c ≠ '[' ∧ c ≠ '\x7b' := by
      rcases hcd with rfl | hd
      · exact ⟨by decide, by decide, by decide, by decide, by decide, by decide⟩
      · exact digit_ne_keyword c hd
    have hsw : skipWs (c :: (t ++ rest)) = c :: (t ++ rest) :=
      skipWs_cons_not c (t ++ rest) hgh.1
    have hp1 : ¬ ((['n', 'u', 'l', 'l'] : Str) <+: c :: (t ++ rest)) :=
      not_prefix_of_head_ne 'n' c _ _ hkw.1
    have hp2 : ¬ ((['t', 'r', 'u', 'e'] : Str) <+: c :: (t ++ rest)) :=
      not_prefix_of_head_ne 't' c _ _ hkw.2.1
    have hp3 : ¬ ((['f', 'a', 'l', 's', 'e'] : Str) <+: c :: (t ++ rest)) :=
      not_prefix_of_head_ne 'f' c _ _ hkw.2.2.1
    rw [harg]
    rcases hcd with rfl | hd
    · simp [parseVal, hsw, hp1, hp2, hp3, hpn]
    · simp [parseVal, hsw, hp1, hp2, hp3, hpn, hkw.2.2.2.1, hkw.2.2.2.2.1,
        hkw.2.2.2.2.2, hd]
  | jstr s =>
    have harg : stringify (.jstr s) ++ rest
        = '"' :: ((s.map jsonEscapeChar).flatten ++ '"' :: rest) := by
      show jsonQuote s ++ rest = _
      simp [jsonQuote]
    have hsw : skipWs ('"' :: ((s.map jsonEscapeChar).flatten ++ '"' :: rest))
        = '"' :: ((s.map jsonEscapeChar).flatten ++ '"' :: rest) :=
      skipWs_cons_not _ _ (by decide)
    have hp1 : ¬ ((['n', 'u', 'l', 'l'] : Str) <+:
        '"' :: ((s.map jsonEscapeChar).flatten ++ '"' :: rest)) :=
      not_prefix_of_head_ne 'n' '"' _ _ (by decide)
    have hp2 : ¬ ((['t', 'r', 'u', 'e'] : Str) <+:
        '"' :: ((s.map jsonEscapeChar).flatten ++ '"' :: rest)) :=
      not_prefix_of_head_ne 't' '"' _ _ (by decide)
    have hp3 : ¬ ((['f', 'a', 'l', 's', 'e'] : Str) <+:
        '"' :: ((s.map jsonEscapeChar).flatten ++ '"' :: rest)) :=
      not_prefix_of_head_ne 'f' '"' _ _ (by decide)
    rw [harg]
    simp [parseVal, hsw, hp1, hp2, hp3, parseStringRest_escape]
  | jarr xs =>
    cases xs with
    | nil =>
      have harg : stringify (.jarr []) ++ rest = '[' :: ']' :: rest := by
        show ('[' :: (stringifyElems [] ++ [']'])) ++ rest = _
        simp [stringifyElems]
      have hsw : skipWs ('[' :: ']' :: rest) = '[' :: ']' :: rest :=
        skipWs_cons_not _ _ (by decide)
      have hsw2 : skipWs (']' :: rest) = ']' :: rest := skipWs_cons_not _ _ (by decide)
      have hp1 : ¬ ((['n', 'u', 'l', 'l'] : Str) <+: '[' :: ']' :: rest) :=
        not_prefix_of_head_ne 'n' '[' _ _ (by decide)
      have hp2 : ¬ ((['t', 'r', 'u', 'e'] : Str) <+: '[' :: ']' :: rest) :=
        not_prefix_of_head_ne 't' '[' _ _ (by decide)
      have hp3 : ¬ ((['f', 'a', 'l', 's', 'e'] : Str) <+: '[' :: ']' :: rest) :=
        not_prefix_of_head_ne 'f' '[' _ _ (by decide)
      rw [harg]
      simp [parseVal, hsw, hsw2, hp1, hp2, hp3]
    | cons x xs =>
      obtain ⟨c, t, hst, hgh⟩ := stringify_cons x
      obtain ⟨u, hu⟩ : ∃ u, stringifyElems (x :: xs) = stringify x ++ u := by
        cases xs with
        | nil => exact ⟨[], by simp [stringifyElems]⟩
        | cons y ys => exact ⟨',' :: stringifyElems (y :: ys), rfl⟩
      have hform : stringifyElems (x :: xs) ++ ']' :: rest
          = c :: (t ++ u ++ ']' :: rest) := by
        rw [hu, hst]
        simp
      have harg : stringify (.jarr (x :: xs)) ++ rest
          = '[' :: (stringifyElems (x :: xs) ++ ']' :: rest) := by
        show ('[' :: (stringifyElems (x :: xs) ++ [']'])) ++ rest = _
        simp
      have hsw : skipWs ('[' :: (stringifyElems (x :: xs) ++ ']' :: rest))
          = '[' :: (stringifyElems (x :: xs) ++ ']' :: rest) :=
        skipWs_cons_not _ _ (by decide)
      have hsw2 : skipWs (stringifyElems (x :: xs) ++ ']' :: rest)
          = stringifyElems (x :: xs) ++ ']' :: rest := by
        rw [hform]
        exact skipWs_cons_not _ _ hgh.1
      have hgd : (stringifyElems (x :: xs) ++ ']' :: rest)[0]? = some c := by
        rw [hform]
        simp
      have hp1 : ¬ ((['n', 'u', 'l', 'l'] : Str) <+:
          '[' :: (stringifyElems (x :: xs) ++ ']' :: rest)) :=
        not_prefix_of_head_ne 'n' '[' _ _ (by decide)
      have hp2 : ¬ ((['t', 'r', 'u', 'e'] : Str) <+:
          '[' :: (stringifyElems (x :: xs) ++ ']' :: rest)) :=
        not_prefix_of_head_ne 't' '[' _ _ (by decide)
      have hp3 : ¬ ((['f', 'a', 'l', 's', 'e'] : Str) <+:
          '[' :: (stringifyElems (x :: xs) ++ ']' :: rest)) :=
        not_prefix_of_head_ne 'f' '[' _ _ (by decide)
      have hfc : fuelNeedElems (x :: xs) ≤ f := by
        simp only [fuelNeed] at hfuel
        omega
      have hrec : parseElems f (stringifyElems (x :: xs) ++ ']' :: rest)
          = some (x :: xs, rest) := parseElems_stringify x xs f rest hfc hrest
      rw [harg]
      simp [parseVal, hsw, hsw2, hgd, hgh.2.1, hp1, hp2, hp3, hrec]
  | jobj fs =>
    cases fs with
    | nil =>
      have harg : stringify (.jobj []) ++ rest = '\x7b' :: '\x7d' :: rest := by
        show ('\x7b' :: (stringifyFields [] ++ ['\x7d'])) ++ rest = _
        simp [stringifyFields]
      have hsw : skipWs ('\x7b' :: '\x7d' :: rest) = '\x7b' :: '\x7d' :: rest :=
        skipWs_cons_not _ _ (by decide)
      have hsw2 : skipWs ('\x7d' :: rest) = '\x7d' :: rest := skipWs_cons_not _ _ (by decide)
      have hp1 : ("null".data : Str).isPrefixOf ('\x7b' :: '\x7d' :: rest) = false :=
        isPrefixOf_cons_ne 'n' '\x7b' "ull".data _ (by decide)
      have hp2 : ("true".data : Str).isPrefixOf ('\x7b' :: '\x7d' :: rest) = false :=
        isPrefixOf_cons_ne 't' '\x7b' "rue".data _ (by decide)
      have hp3 : ("false".data : Str).isPrefixOf ('\x7b' :: '\x7d' :: rest) = false :=
        isPrefixOf_cons_ne 'f' '\x7b' "alse".data _ (by decide)
      rw [harg]
      simp [parseVal, hsw, hsw2, hp1, hp2, hp3]
    | cons g fs =>
      obtain ⟨k, v⟩ := g
      obtain ⟨u, hu⟩ : ∃ u, stringifyFields ((k, v) :: fs) = '"' :: u := by
        cases fs with
        | nil =>
          exact ⟨(k.map jsonEscapeChar).flatten ++ ['"'] ++ ':' :: stringify v, by
            simp [stringifyFields, jsonQuote]⟩
        | cons g2 gs =>
          exact ⟨(k.map jsonEscapeChar).flatten ++ ['"'] ++ ':' :: stringify v ++
            ',' :: stringifyFields (g2 :: gs), by
              simp [stringifyFields, jsonQuote]⟩
      have hform : stringifyFields ((k, v) :: fs) ++ '\x7d' :: rest
          = '"' :: (u ++ '\x7d' :: rest) := by
        rw [hu]
        simp
      have harg : stringify (.jobj ((k, v) :: fs)) ++ rest
          = '\x7b' :: (stringifyFields ((k, v) :: fs) ++ '\x7d' :: rest) := by
        show ('\x7b' :: (stringifyFields ((k, v) :: fs) ++ ['\x7d'])) ++ rest = _
        simp
      have hsw : skipWs ('\x7b' :: (stringifyFields ((k, v) :: fs) ++ '\x7d' :: rest))
          = '\x7b' :: (stringifyFields ((k, v) :: fs) ++ '\x7d' :: rest) :=
        skipWs_cons_not _ _ (by decide)
      have hsw2 : skipWs (stringifyFields ((k, v) :: fs) ++ '\x7d' :: rest)
          = stringifyFields ((k, v) :: fs) ++ '\x7d' :: rest := by
        rw [hform]
        exact skipWs_cons_not _ _ (by decide)
      have hgd : (stringifyFields ((k, v) :: fs) ++ '\x7d' :: rest)[0]? = some '"' := by
        rw [hform]
        simp
      have hp1 : ¬ ((['n', 'u', 'l', 'l'] : Str) <+:
          '\x7b' :: (stringifyFields ((k, v) :: fs) ++ '\x7d' :: rest)) :=
        not_prefix_of_head_ne 'n' '\x7b' _ _ (by decide)
      have hp2 : ¬ ((['t', 'r', 'u', 'e'] : Str) <+:
          '\x7b' :: (stringifyFields ((k, v) :: fs) ++ '\x7d' :: rest)) :=
        not_prefix_of_head_ne 't' '\x7b' _ _ (by decide)
      have hp3 : ¬ ((['f', 'a', 'l', 's', 'e'] : Str) <+:
          '\x7b' :: (stringifyFields ((k, v) :: fs) ++ '\x7d' :: rest)) :=
        not_prefix_of_head_ne 'f' '\x7b' _ _ (by decide)
      have hfc : fuelNeedFields ((k, v) :: fs) ≤ f := by
        simp only [fuelNeed] at hfuel
        omega
      have hrec : parseFields f (stringifyFields ((k, v) :: fs) ++ '\x7d' :: rest)
          = some ((k, v) :: fs, rest) := parseFields_stringify k v fs f rest hfc hrest
      rw [harg]
      simp [parseVal, hsw, hsw2, hgd, hp1, hp2, hp3, hrec]
termination_by fuel
decreasing_by all_goals omega

theorem parseElems_stringify (x : JVal) (xs : List JVal) (fuel : Nat) (rest : Str)
    (hfuel : fuelNeedElems (x :: xs) ≤ fuel) (hrest : Delim rest) :
    parseElems fuel (stringifyElems (x :: xs) ++ ']' :: rest) = some (x :: xs, rest) := by
  obtain ⟨f, rfl⟩ : ∃ f, fuel = f + 1 :=
    ⟨fuel - 1, by have := one_le_fuelNeedElems (x :: xs); omega⟩
  have hfx : fuelNeed x ≤ f := by
    simp only [fuelNeedElems] at hfuel
    omega
  cases xs with
  | nil =>
    have hs : stringifyElems [x] ++ ']' :: rest = stringify x ++ ']' :: rest := by
      simp [stringifyElems]
    have h1 : parseVal f (stringify x ++ ']' :: rest) = some (x, ']' :: rest) :=
      parseVal_stringify x f (']' :: rest) hfx (delim_rbracket rest)
    have hsw : skipWs (']' :: rest) = ']' :: rest := skipWs_cons_not _ _ (by decide)
    rw [hs]
    simp [parseElems, h1, hsw]
  | cons y ys =>
    have hs : stringifyElems (x :: y :: ys) ++ ']' :: rest
        = stringify x ++ (',' :: (stringifyElems (y :: ys) ++ ']' :: rest)) := by
      show (stringify x ++ ',' :: stringifyElems (y :: ys)) ++ ']' :: rest = _
      simp
    have h1 : parseVal f (stringify x ++ (',' :: (stringifyElems (y :: ys) ++ ']' :: rest)))
        = some (x, ',' :: (stringifyElems (y :: ys) ++ ']' :: rest)) :=
      parseVal_stringify x f _ hfx (delim_comma _)
    have hfr : fuelNeedElems (y :: ys) ≤ f := by
      rw [fuelNeedElems] at hfuel
      omega
    have h2 : parseElems f (stringifyElems (y :: ys) ++ ']' :: rest)
        = some (y :: ys, rest) := parseElems_stringify y ys f rest hfr hrest
    have hsw : skipWs (',' :: (stringifyElems (y :: ys) ++ ']' :: rest))
        = ',' :: (stringifyElems (y :: ys) ++ ']' :: rest) :=
      skipWs_cons_not _ _ (by decide)
    rw [hs]
    simp [parseElems, h1, hsw, h2]
termination_by fuel
decreasing_by all_goals omega

theorem parseFields_stringify (k : Str) (v : JVal) (fs : List (Str × JVal)) (fuel : Nat)
    (rest : Str) (hfuel : fuelNeedFields ((k, v) :: fs) ≤ fuel) (hrest : Delim rest) :
    parseFields fuel (stringifyFields ((k, v) :: fs) ++ '\x7d' :: rest)
      = some ((k, v) :: fs, rest) := by
  obtain ⟨f, rfl⟩ : ∃ f, fuel = f + 1 :=
    ⟨fuel - 1, by have := one_le_fuelNeedFields ((k, v) :: fs); omega⟩
  have hfv : fuelNeed v ≤ f := by
    simp only [fuelNeedFields] at hfuel
    omega
  cases fs with
  | nil =>
    have hs : stringifyFields [(k, v)] ++ '\x7d' :: rest
        = '"' :: ((k.map jsonEscapeChar).flatten ++
            '"' :: (':' :: (stringify v ++ '\x7d' :: rest))) := by
      show (jsonQuote k ++ ':' :: stringify v) ++ '\x7d' :: rest = _
      simp [jsonQuote]
    have hsw : skipWs ('"' :: ((k.map jsonEscapeChar).flatten ++
        '"' :: (':' :: (stringify v ++ '\x7d' :: rest))))
        = '"' :: ((k.map jsonEscapeChar).flatten ++
            '"' :: (':' :: (stringify v ++ '\x7d' :: rest))) :=
      skipWs_cons_not _ _ (by decide)
    have hkey := parseStringRest_escape k (':' :: (stringify v ++ '\x7d' :: rest))
    have hsw2 : skipWs (':' :: (stringify v ++ '\x7d' :: rest))
        = ':' :: (stringify v ++ '\x7d' :: rest) := skipWs_cons_not _ _ (by decide)
    have h1 : parseVal f (stringify v ++ '\x7d' :: rest) = some (v, '\x7d' :: rest) :=
      parseVal_stringify v f ('\x7d' :: rest) hfv (delim_rbrace rest)
    have hsw3 : skipWs ('\x7d' :: rest) = '\x7d' :: rest := skipWs_cons_not _ _ (by decide)
    rw [hs]
    simp [parseFields, hsw, hkey, hsw2, h1, hsw3]
  | cons g gs =>
    obtain ⟨k2, v2⟩ := g
    have hs : stringifyFields ((k, v) :: (k2, v2) :: gs) ++ '\x7d' :: rest
        = '"' :: ((k.map jsonEscapeChar).flatten ++
            '"' :: (':' :: (stringify v ++
              ',' :: (stringifyFields ((k2, v2) :: gs) ++ '\x7d' :: rest)))) := by
      show (jsonQuote k ++ ':' :: stringify v ++
        ',' :: stringifyFields ((k2, v2) :: gs)) ++ '\x7d' :: rest = _
      simp [jsonQuote]
    have hsw : skipWs ('"' :: ((k.map jsonEscapeChar).flatten ++
        '"' :: (':' :: (stringify v ++
          ',' :: (stringifyFields ((k2, v2) :: gs) ++ '\x7d' :: rest)))))
        = '"' :: ((k.map jsonEscapeChar).flatten ++
            '"' :: (':' :: (stringify v ++
              ',' :: (stringifyFields ((k2, v2) :: gs) ++ '\x7d' :: rest)))) :=
      skipWs_cons_not _ _ (by decide)
    have hkey := parseStringRest_escape k
      (':' :: (stringify v ++ ',' :: (stringifyFields ((k2, v2) :: gs) ++ '\x7d' :: rest)))
    have hsw2 : skipWs (':' :: (stringify v ++
        ',' :: (stringifyFields ((k2, v2) :: gs) ++ '\x7d' :: rest)))
        = ':' :: (stringify v ++
            ',' :: (stringifyFields ((k2, v2) :: gs) ++ '\x7d' :: rest)) :=
      skipWs_cons_not _ _ (by decide)
    have h1 : parseVal f (stringify v ++
        ',' :: (stringifyFields ((k2, v2) :: gs) ++ '\x7d' :: rest))
        = some (v, ',' :: (stringifyFields ((k2, v2) :: gs) ++ '\x7d' :: rest)) :=
      parseVal_stringify v f _ hfv (delim_comma _)
    have hsw3 : skipWs (',' :: (stringifyFields ((k2, v2) :: gs) ++ '\x7d' :: rest))
        = ',' :: (stringifyFields ((k2, v2) :: gs) ++ '\x7d' :: rest) :=
      skipWs_cons_not _ _ (by decide)
    have hfr : fuelNeedFields ((k2, v2) :: gs) ≤ f := by
      rw [fuelNeedFields] at hfuel
      omega
    have h2 : parseFields f (stringifyFields ((k2, v2) :: gs) ++ '\x7d' :: rest)
        = some ((k2, v2) :: gs, rest) := parseFields_stringify k2 v2 gs f rest hfr hrest
    rw [hs]
    simp [parseFields, hsw, hkey, hsw2, h1, hsw3, h2]
termination_by fuel
decreasing_by all_goals omega

end

mutual

theorem fuelNeed_le_length (v : JVal) : fuelNeed v ≤ (stringify v).length := by
  cases v with
  | jnull => simp [fuelNeed, stringify]
  | jbool b => cases b <;> simp [fuelNeed, stringify]
  | jnum i =>
    obtain ⟨c, t, hst, _⟩ := intToStr_cons i
    show 1 ≤ (intToStr i).length
    rw [hst]
    simp
  | jstr s =>
    show 1 ≤ (jsonQuote s).length
    simp [jsonQuote]
  | jarr xs =>
    cases xs with
    | nil => simp [fuelNeed, stringify, stringifyElems]
    | cons x xs =>
      have h := fuelNeedElems_le_length (x :: xs)
      show 1 + fuelNeedElems (x :: xs) ≤ ('[' :: (stringifyElems (x :: xs) ++ [']'])).length
      simp only [List.length_cons, List.length_append, List.length_singleton]
      omega
  | jobj fs =>
    cases fs with
    | nil => simp [fuelNeed, stringify, stringifyFields]
    | cons g fs =>
      have h := fuelNeedFields_le_length (g :: fs)
      show 1 + fuelNeedFields (g :: fs) ≤ ('\x7b' :: (stringifyFields (g :: fs) ++ ['\x7d'])).length
      simp only [List.length_cons, List.length_append, List.length_singleton]
      omega

theorem fuelNeedElems_le_length (l : List JVal) :
    fuelNeedElems l ≤ (stringifyElems l).length + 1 := by
  cases l with
  | nil => simp [fuelNeedElems, stringifyElems]
  | cons x xs =>
    have hx := fuelNeed_le_length x
    have hpos := stringify_length_pos x
    cases xs with
    | nil =>
      show 1 + max (fuelNeed x) (fuelNeedElems []) ≤ (stringifyElems [x]).length + 1
      have : fuelNeedElems ([] : List JVal) = 1 := rfl
      have hse : stringifyElems [x] = stringify x := rfl
      rw [hse, this]
      omega
    | cons y ys =>
      have hr := fuelNeedElems_le_length (y :: ys)
      show 1 + max (fuelNeed x) (fuelNeedElems (y :: ys))
        ≤ (stringify x ++ ',' :: stringifyElems (y :: ys)).length + 1
      simp only [List.length_append, List.length_cons]
      omega

theorem fuelNeedFields_le_length (l : List (Str × JVal)) :
    fuelNeedFields l ≤ (stringifyFields l).length + 1 := by
  cases l with
  | nil => simp [fuelNeedFields, stringifyFields]
  | cons g fs =>
    obtain ⟨k, v⟩ := g
    have hv := fuelNeed_le_length v
    have hpos := stringify_length_pos v
    cases fs with
    | nil =>
      show 1 + max (fuelNeed v) (fuelNeedFields []) ≤ (stringifyFields [(k, v)]).length + 1
      have h0 : fuelNeedFields ([] : List (Str × JVal)) = 1 := rfl
      have hse : stringifyFields [(k, v)] = jsonQuote k ++ ':' :: stringify v := rfl
      rw [hse, h0]
      simp only [List.length_append, List.length_cons]
      omega
    | cons g2 gs =>
      have hr := fuelNeedFields_le_length (g2 :: gs)
      show 1 + max (fuelNeed v) (fuelNeedFields (g2 :: gs))
        ≤ (jsonQuote k ++ ':' :: stringify v ++ ',' :: stringifyFields (g2 :: gs)).length + 1
      simp only [List.length_append, List.length_cons]
      omega

end

/-- JSON round trip: parsing a stringified value recovers the value. -/
theorem jsonParse_stringify (v : JVal) : jsonParse (stringify v) = some v := by
  have hb : fuelNeed v ≤ (stringify v).length + 1 := by
    have := fuelNeed_le_length v
    omega
  have hp : parseVal ((stringify v).length + 1) (stringify v ++ []) = some (v, []) :=
    parseVal_stringify v ((stringify v).length + 1) [] hb (Or.inl rfl)
  rw [List.append_nil] at hp
  simp [jsonParse, hp, skipWs]

/-! ## `prependNodeName` (src/functions/modules/utils.js, lines 260-295)

`prependNodeName(link, prefix)` adds a display-name prefix to a node link.
For generic links it rewrites the URI fragment after the last `#`; for
`vmess://` links it decodes the base64 JSON payload and rewrites its `ps`
field, falling back to the fragment method when any step of the vmess
path throws.  `decodeURIComponent` failures outside the vmess `try` block
propagate to the caller, so the embedding returns `Except Unit Str`. -/

/-- Split a list at the last occurrence of `c`: `some (before, after)`,
or `none` when `c` does not occur (models `lastIndexOf`/`substring`). -/
def lastSplit (c : Char) : Str → Option (Str × Str)
  | [] => none
  | a :: t =>
    match lastSplit c t with
    | some (b, aft) => some (a :: b, aft)
    | none => if a = c then some ([], t) else none

theorem lastSplit_none_of_not_mem (c : Char) (s : Str) (h : c ∉ s) :
    lastSplit c s = none := by
  induction s with
  | nil => rfl
  | cons a t ih =>
    have hat : c ∉ t := fun hm => h (List.mem_cons_of_mem a hm)
    have hne : ¬ (a = c) := fun he => h (he ▸ List.mem_cons_self a t)
    simp [lastSplit, ih hat, hne]

theorem lastSplit_append (c : Char) (b e : Str) (h : c ∉ e) :
    lastSplit c (b ++ c :: e) = some (b, e) := by
  induction b with
  | nil => simp [lastSplit, lastSplit_none_of_not_mem c e h]
  | cons a t ih => simp [lastSplit, ih]

/-- Property read on a parsed JSON object: JavaScript objects built by
`JSON.parse` keep the last value for a duplicated key, so the read takes
the last occurrence in the field list. -/
def objGet : List (Str × JVal) → Str → Option JVal
  | [], _ => none
  | (k2, v2) :: fs, k =>
    match objGet fs k with
    | some v => some v
    | none => if k2 = k then some v2 else none

/-- Removal of every binding of a key from a field list. -/
def objDrop (k : Str) : List (Str × JVal) → List (Str × JVal)
  | [] => []
  | (k2, v2) :: fs => if k2 = k then objDrop k fs else (k2, v2) :: objDrop k fs

/-- Property write on a parsed JSON object: update the first occurrence in
place (JavaScript key order is first-insertion order) and drop later
duplicates of the key, appending when the key is absent. -/
def objSet : List (Str × JVal) → Str → JVal → List (Str × JVal)
  | [], k, v => [(k, v)]
  | (k2, v2) :: fs, k, v =>
    if k2 = k then (k, v) :: objDrop k fs
    else (k2, v2) :: objSet fs k v

theorem objGet_objDrop (fs : List (Str × JVal)) (k : Str) :
    objGet (objDrop k fs) k = none := by
  induction fs with
  | nil => rfl
  | cons p fs ih =>
    obtain ⟨k2, v2⟩ := p
    by_cases hk : k2 = k
    · simp [objDrop, hk, ih]
    · simp [objDrop, hk, objGet, ih]

theorem objGet_objSet (fs : List (Str × JVal)) (k : Str) (v : JVal) :
    objGet (objSet fs k v) k = some v := by
  induction fs with
  | nil => simp [objSet, objGet]
  | cons p fs ih =>
    obtain ⟨k2, v2⟩ := p
    by_cases hk : k2 = k
    · simp [objSet, hk, objGet, objGet_objDrop]
    · simp [objSet, hk, objGet, ih]

/-- Evaluation of `nodeConfig.ps`: throws on `null` (TypeError), reads the
`ps` key on objects, and yields `undefined` (`none`) on every other value. -/
def psValue (cfg : JVal) : Except Unit (Option JVal) :=
  match cfg with
  | .jnull => .error ()
  | .jobj fs => .ok (objGet fs ("ps".data))
  | _ => .ok none

/-- Evaluation of `(nodeConfig.ps || '').startsWith`-readiness: falsy values
collapse to the empty string, strings pass through, and a truthy non-string
makes the subsequent `.startsWith` call throw a TypeError. -/
def psOrEmpty (pv : Option JVal) : Except Unit Str :=
  match pv with
  | none => .ok []
  | some .jnull => .ok []
  | some (.jbool false) => .ok []
  | some (.jbool true) => .error ()
  | some (.jnum n) => if n = 0 then .ok [] else .error ()
  | some (.jstr s) => .ok s
  | some (.jarr _) => .error ()
  | some (.jobj _) => .error ()

/-- Evaluation of `nodeConfig.ps = v`: writes the key on objects, is absorbed
by `JSON.stringify` on arrays (expando properties are not serialised), and
throws a strict-mode TypeError on primitives and `null`. -/
def setPs (cfg : JVal) (v : Str) : Except Unit JVal :=
  match cfg with
  | .jobj fs => .ok (.jobj (objSet fs ("ps".data) (.jstr v)))
  | .jarr xs => .ok (.jarr xs)
  | _ => .error ()

/-- The `appendToFragment` closure inside `prependNodeName`. -/
def appendToFragment (baseLink pfx : Str) : Except Unit Str :=
  match lastSplit '#' baseLink with
  | none =>
    if pfx.isPrefixOf ([] : Str) then .ok baseLink
    else .ok (baseLink ++ '#' :: encodeURIComponent pfx)
  | some (base, encName) =>
    match decodeURIComponent encName with
    | none => .error ()
    | some originalName =>
      if pfx.isPrefixOf originalName then .ok baseLink
      else
        .ok (base ++ '#' :: encodeURIComponent
          (if originalName = [] then pfx else pfx ++ " - ".data ++ originalName))

/-- The `try` block of the `vmess://` branch of `prependNodeName`; `none`
models a caught exception (invalid base64, invalid JSON, or a TypeError from
the `ps` handling) that triggers the fragment fallback. -/
def vmessTry (base64Part pfx : Str) : Option Str :=
  match atob base64Part with
  | none => none
  | some bytes =>
    match jsonParse (utf8DecodeLossy bytes) with
    | none => none
    | some cfg =>
      match psValue cfg with
      | .error _ => none
      | .ok pv =>
        match psOrEmpty pv with
        | .error _ => none
        | .ok originalPs =>
          if pfx.isPrefixOf originalPs then
            some ("vmess://".data ++ btoa (utf8Encode (stringify cfg)))
          else
            match setPs cfg
              (if originalPs = [] then pfx else pfx ++ " - ".data ++ originalPs) with
            | .error _ => none
            | .ok cfg2 => some ("vmess://".data ++ btoa (utf8Encode (stringify cfg2)))

/-- Model of `prependNodeName` from src/functions/modules/utils.js. -/
def prependNodeName (link pfx : Str) : Except Unit Str :=
  if pfx = [] then .ok link
  else if ("vmess://".data).isPrefixOf link then
    match vmessTry (link.drop ("vmess://".data).length) pfx with
    | some o => .ok o
    | none => appendToFragment link pfx
  else appendToFragment link pfx

theorem isPrefixOf_refl (p : Str) : p.isPrefixOf p = true := by
  have := isPrefixOf_append_self p []
  rwa [List.append_nil] at this

theorem not_isPrefixOf_nil (p : Str) (hp : p ≠ []) :
    p.isPrefixOf ([] : Str) = false := by
  cases p with
  | nil => exact absurd rfl hp
  | cons a t => simp [List.isPrefixOf]

theorem appendToFragment_fragment_fixed (b nm pfx : Str)
    (hnm : pfx.isPrefixOf nm = true) :
    appendToFragment (b ++ '#' :: encodeURIComponent nm) pfx
      = .ok (b ++ '#' :: encodeURIComponent nm) := by
  simp only [appendToFragment,
    lastSplit_append '#' b (encodeURIComponent nm) (hash_not_mem_encodeURIComponent nm),
    decodeURIComponent_encodeURIComponent]
  simp [hnm]

theorem appendToFragment_ok_shape (link pfx out : Str) (hp : pfx ≠ [])
    (h : appendToFragment link pfx = .ok out) :
    out = link ∨ ∃ b nm, out = b ++ '#' :: encodeURIComponent nm ∧
      pfx.isPrefixOf nm = true := by
  cases hls : lastSplit '#' link with
  | none =>
    simp only [appendToFragment, hls, not_isPrefixOf_nil pfx hp] at h
    simp at h
    rcases h with rfl
    exact Or.inr ⟨link, pfx, rfl, isPrefixOf_refl pfx⟩
  | some p =>
    obtain ⟨base, encName⟩ := p
    cases hdc : decodeURIComponent encName with
    | none => simp [appendToFragment, hls, hdc] at h
    | some orig =>
      by_cases hsp : pfx.isPrefixOf orig = true
      · simp [appendToFragment, hls, hdc, hsp] at h
        rcases h with rfl
        exact Or.inl rfl
      · simp [appendToFragment, hls, hdc, hsp] at h
        rcases h with rfl
        refine Or.inr ⟨base, _, rfl, ?_⟩
        by_cases ho : orig = []
        · simp [ho, isPrefixOf_refl]
        · simp [ho, List.append_assoc, isPrefixOf_append_self]

theorem vmessTry_none_of_hash (s pfx : Str) (h : '#' ∈ s) :
    vmessTry s pfx = none := by
  unfold vmessTry
  rw [atob_none_of_hash s h]

theorem hash_mem_of_scheme_split (b e t : Str)
    (h : "vmess://".data ++ t = b ++ '#' :: e) : '#' ∈ t := by
  have hm : '#' ∈ "vmess://".data ++ t := by rw [h]; simp
  rcases List.mem_append.mp hm with h1 | h1
  · exact absurd h1 (by decide)
  · exact h1

/-- Running `vmessTry` on the fragment-rewritten output it fell back to is
impossible: the appended fragment puts a `#` into the base64 slice. -/
theorem vmessTry_fragment_none (b nm pfx : Str)
    (hv : ("vmess://".data).isPrefixOf (b ++ '#' :: encodeURIComponent nm) = true) :
    vmessTry ((b ++ '#' :: encodeURIComponent nm).drop ("vmess://".data).length) pfx
      = none := by
  obtain ⟨t, ht⟩ := List.isPrefixOf_iff_prefix.mp hv
  have hdrop : (b ++ '#' :: encodeURIComponent nm).drop ("vmess://".data).length = t := by
    rw [← ht]
    exact List.drop_left _ _
  rw [hdrop]
  exact vmessTry_none_of_hash t pfx (hash_mem_of_scheme_split b (encodeURIComponent nm) t ht)

theorem prependNodeName_fragment_fixed (b nm pfx : Str) (hp : pfx ≠ [])
    (hnm : pfx.isPrefixOf nm = true) :
    prependNodeName (b ++ '#' :: encodeURIComponent nm) pfx
      = .ok (b ++ '#' :: encodeURIComponent nm) := by
  unfold prependNodeName
  rw [if_neg hp]
  by_cases hv : ("vmess://".data).isPrefixOf (b ++ '#' :: encodeURIComponent nm) = true
  · rw [if_pos hv, vmessTry_fragment_none b nm pfx hv]
    exact appendToFragment_fragment_fixed b nm pfx hnm
  · rw [if_neg hv]
    exact appendToFragment_fragment_fixed b nm pfx hnm

/-- Second run of the vmess branch on a payload produced by the first run. -/
theorem vmessTry_btoa (cfg : JVal) (pfx : Str) :
    vmessTry (btoa (utf8Encode (stringify cfg))) pfx
      = (match psValue cfg with
        | .error _ => none
        | .ok pv =>
          match psOrEmpty pv with
          | .error _ => none
          | .ok ops =>
            if pfx.isPrefixOf ops then
              some ("vmess://".data ++ btoa (utf8Encode (stringify cfg)))
            else
              match setPs cfg (if ops = [] then pfx else pfx ++ " - ".data ++ ops) with
              | .error _ => none
              | .ok cfg2 => some ("vmess://".data ++ btoa (utf8Encode (stringify cfg2)))) := by
  unfold vmessTry
  simp only [atob_btoa _ (utf8Encode_lt _), utf8DecodeLossy_encode, jsonParse_stringify]

theorem vmessTry_some_idem (s pfx o : Str) (hp : pfx ≠ [])
    (h : vmessTry s pfx = some o) :
    ∃ pay, o = "vmess://".data ++ pay ∧ vmessTry pay pfx = some o := by
  unfold vmessTry at h
  cases ha : atob s with
  | none => rw [ha] at h; simp at h
  | some bytes =>
    simp only [ha] at h
    cases hj : jsonParse (utf8DecodeLossy bytes) with
    | none => simp only [hj] at h; simp at h
    | some cfg =>
      simp only [hj] at h
      cases hpv : psValue cfg with
      | error u => simp only [hpv] at h; simp at h
      | ok pv =>
        simp only [hpv] at h
        cases hpo : psOrEmpty pv with
        | error u => simp only [hpo] at h; simp at h
        | ok ops =>
          simp only [hpo] at h
          by_cases hsw : pfx.isPrefixOf ops = true
          · rw [if_pos hsw] at h
            simp only [Option.some.injEq] at h
            subst h
            have hsw2 : pfx <+: ops := List.isPrefixOf_iff_prefix.mp hsw
            refine ⟨btoa (utf8Encode (stringify cfg)), by simp, ?_⟩
            rw [vmessTry_btoa]
            simp [hpv, hpo, hsw2]
          · rw [if_neg hsw] at h
            have hswn : ¬ (pfx <+: ops) :=
              fun hh => hsw (List.isPrefixOf_iff_prefix.mpr hh)
            cases hset : setPs cfg (if ops = [] then pfx else pfx ++ " - ".data ++ ops) with
            | error u => simp only [hset] at h; simp at h
            | ok cfg2 =>
              simp only [hset] at h
              simp only [Option.some.injEq] at h
              subst h
              refine ⟨btoa (utf8Encode (stringify cfg2)), by simp, ?_⟩
              rw [vmessTry_btoa]
              -- a successful write means cfg was an object or an array
              cases cfg with
              | jobj fs =>
                have hc2 : JVal.jobj (objSet fs ("ps".data)
                    (.jstr (if ops = [] then pfx else pfx ++ " - ".data ++ ops))) = cfg2 := by
                  simp only [setPs, Except.ok.injEq] at hset
                  exact hset
                subst hc2
                have hpfx2 : pfx <+:
                    (if ops = [] then pfx else pfx ++ ' ' :: '-' :: ' ' :: ops) := by
                  by_cases ho : ops = []
                  · simp [ho]
                  · simp [ho, List.prefix_append]
                simp [psValue, objGet_objSet, psOrEmpty, hpfx2]
              | jarr xs =>
                have hc2 : JVal.jarr xs = cfg2 := by
                  simp only [setPs, Except.ok.injEq] at hset
                  exact hset
                subst hc2
                have hpv2 : pv = none := by
                  simp only [psValue, Except.ok.injEq] at hpv
                  exact hpv.symm
                subst hpv2
                have hops : ops = [] := by
                  simp only [psOrEmpty, Except.ok.injEq] at hpo
                  exact hpo.symm
                subst hops
                simp [psValue, psOrEmpty, setPs, hp]
              | jnull => simp [setPs] at hset
              | jbool b => simp [setPs] at hset
              | jnum n => simp [setPs] at hset
              | jstr s2 => simp [setPs] at hset

/-- C6: name-prefixing is idempotent — if `prependNodeName link pfx` succeeds
with output `out` for a non-empty prefix, then applying `prependNodeName` to
`out` with the same prefix returns `out` unchanged, both on the URI-fragment
path and on the vmess base64-JSON `ps` path. -/
theorem prependNodeName_idem (link pfx out : Str) (hp : pfx ≠ [])
    (h : prependNodeName link pfx = .ok out) :
    prependNodeName out pfx = .ok out := by
  unfold prependNodeName at h
  rw [if_neg hp] at h
  by_cases hv : ("vmess://".data).isPrefixOf link = true
  · rw [if_pos hv] at h
    cases hvt : vmessTry (link.drop ("vmess://".data).length) pfx with
    | none =>
      rw [hvt] at h
      simp only [] at h
      rcases appendToFragment_ok_shape link pfx out hp h with hol | ⟨b, nm, hob, hnm⟩
      · subst hol
        unfold prependNodeName
        rw [if_neg hp, if_pos hv, hvt]
        exact h
      · subst hob
        exact prependNodeName_fragment_fixed b nm pfx hp hnm
    | some o =>
      rw [hvt] at h
      simp only [Except.ok.injEq] at h
      subst h
      obtain ⟨pay, hoe, hpay⟩ := vmessTry_some_idem _ _ _ hp hvt
      subst hoe
      unfold prependNodeName
      rw [if_neg hp, if_pos (isPrefixOf_append_self _ _), List.drop_left, hpay]
  · rw [if_neg hv] at h
    rcases appendToFragment_ok_shape link pfx out hp h with hol | ⟨b, nm, hob, hnm⟩
    · subst hol
      unfold prependNodeName
      rw [if_neg hp, if_neg hv]
      exact h
    · subst hob
      exact prependNodeName_fragment_fixed b nm pfx hp hnm

/-- Concrete instance of the C6 idempotence theorem: prefixing
`trojan://h#a` with `X` yields `trojan://h#X%20-%20a`, and prefixing the
result again leaves it unchanged. -/
theorem prependNodeName_idem_witness :
    ("X".data : Str) ≠ [] ∧
    prependNodeName ("trojan://h#a".data) ("X".data)
      = .ok ("trojan://h#X%20-%20a".data) ∧
    prependNodeName ("trojan://h#X%20-%20a".data) ("X".data)
      = .ok ("trojan://h#X%20-%20a".data) :=
  ⟨by decide,
    by
      simp +decide [prependNodeName, appendToFragment, lastSplit, decodeURIComponent,
        pctBytes?, utf8Decode?, encodeURIComponent, utf8EncodeChar, pctEncodeByte,
        isUnreservedURI, hexDigitUpper, hexVal?, utf8Encode],
    prependNodeName_idem ("trojan://h#a".data) ("X".data)
      ("trojan://h#X%20-%20a".data) (by decide)
      (by
        simp +decide [prependNodeName, appendToFragment, lastSplit, decodeURIComponent,
          pctBytes?, utf8Decode?, encodeURIComponent, utf8EncodeChar, pctEncodeByte,
          isUnreservedURI, hexDigitUpper, hexVal?, utf8Encode])⟩

/-! ## `getProcessedUserAgent` (src/functions/modules/utils.js, lines 246-252)

The source returns the falsy input unchanged (`if (!originalUserAgent)
return originalUserAgent;`) and the fixed string `'v2rayN/7.23'` for every
truthy input; the unused `url` parameter is dropped. -/

def getProcessedUserAgent (originalUserAgent : Str) : Str :=
  if originalUserAgent = [] then originalUserAgent else "v2rayN/7.23".data

/-- C8 counterexample: the spec says the canonical UA is returned for every
input, but the empty (falsy) declared UA is returned unchanged. -/
theorem getProcessedUserAgent_empty_counterexample :
    ¬ (∀ ua : Str, getProcessedUserAgent ua = "v2rayN/7.23".data) := by
  intro h
  exact absurd (h []) (by decide)

/-- C8 (amended): for every non-empty declared User-Agent the outbound
User-Agent is the single canonical string `v2rayN/7.23`, regardless of the
declared value. -/
theorem getProcessedUserAgent_canonical (ua : Str) (h : ua ≠ []) :
    getProcessedUserAgent ua = "v2rayN/7.23".data := by
  simp [getProcessedUserAgent, h]

/-- Concrete instance of the amended C8 theorem at a real-world UA. -/
theorem getProcessedUserAgent_canonical_witness :
    ("curl/8.0".data : Str) ≠ [] ∧
    getProcessedUserAgent ("curl/8.0".data) = "v2rayN/7.23".data :=
  ⟨by decide, getProcessedUserAgent_canonical ("curl/8.0".data) (by decide)⟩

/-! ## Aggregation dedup (src/functions/[[path]].js, generateCombinedNodeList)

The final line of `generateCombinedNodeList` builds
`processedManualNodes + '\n' + processedSubContents.join('\n')`, splits on
newline, trims each line, drops empty lines, deduplicates with a JS `Set`
(which keeps the first occurrence in insertion order) and joins with
newline. -/

/-- Deduplication with an explicit seen-set accumulator, matching the
insertion-order/keep-first semantics of iterating a JS `Set`. -/
def dedupSeen (seen : List Str) : List Str → List Str
  | [] => []
  | a :: l => if a ∈ seen then dedupSeen seen l else a :: dedupSeen (a :: seen) l

def dedupKeepFirst (l : List Str) : List Str := dedupSeen [] l

/-- Final aggregation step of `generateCombinedNodeList` on the already
processed manual-node block and per-subscription blocks. -/
def combineAndDedup (processedManualNodes : Str) (processedSubContents : List Str) : Str :=
  List.intercalate ['\n']
    (dedupKeepFirst
      ((((processedManualNodes ++ '\n' :: List.intercalate ['\n'] processedSubContents).splitOn
          '\n').map jsTrim).filter (fun l => ¬ l = [])))

theorem count_dedupSeen (l : List Str) : ∀ (seen : List Str) (x : Str),
    (dedupSeen seen l).count x = if x ∈ seen then 0 else if x ∈ l then 1 else 0 := by
  induction l with
  | nil => intro seen x; simp [dedupSeen]
  | cons a l ih =>
    intro seen x
    by_cases ha : a ∈ seen
    · rw [dedupSeen, if_pos ha, ih seen x]
      by_cases hx : x ∈ seen
      · simp [hx]
      · have hxa : ¬ x = a := fun he => hx (he ▸ ha)
        simp [hx, hxa]
    · rw [dedupSeen, if_neg ha]
      by_cases hxa : x = a
      · subst hxa
        rw [List.count_cons_self, ih (x :: seen) x]
        simp [ha]
      · rw [List.count_cons_of_ne hxa, ih (a :: seen) x]
        simp [List.mem_cons, hxa]

theorem mem_of_mem_dedupSeen (l : List Str) : ∀ (seen : List Str) (x : Str),
    x ∈ dedupSeen seen l → x ∈ l := by
  induction l with
  | nil => intro seen x h; simp [dedupSeen] at h
  | cons a l ih =>
    intro seen x h
    by_cases ha : a ∈ seen
    · rw [dedupSeen, if_pos ha] at h
      exact List.mem_cons_of_mem a (ih seen x h)
    · rw [dedupSeen, if_neg ha] at h
      rcases List.mem_cons.mp h with rfl | h2
      · exact List.mem_cons_self x l
      · exact List.mem_cons_of_mem a (ih (a :: seen) x h2)

theorem mem_splitOn_not_sep (s : Str) : ∀ p ∈ s.splitOn '\n', '\n' ∉ p := by
  induction s with
  | nil =>
    intro p hp
    simp [List.splitOn, List.splitOnP_nil] at hp
    simp [hp]
  | cons c t ih =>
    obtain ⟨h0, r, hl⟩ : ∃ h0 r, t.splitOn '\n' = h0 :: r := by
      cases hsp : t.splitOn '\n' with
      | nil => exact absurd hsp (List.splitOnP_ne_nil _ t)
      | cons h0 r => exact ⟨h0, r, rfl⟩
    intro p hp
    by_cases hc : c = '\n'
    · rw [List.splitOn, List.splitOnP_cons] at hp
      simp [hc] at hp
      rcases hp with rfl | hp
      · simp
      · exact ih p hp
    · rw [List.splitOn, List.splitOnP_cons] at hp
      have hbeq : (c == '\n') = false := by simp [hc]
      rw [hbeq] at hp
      simp only [Bool.false_eq_true, if_false] at hp
      rw [show t.splitOnP (· == '\n') = h0 :: r from hl] at hp
      simp only [List.modifyHead] at hp
      rcases List.mem_cons.mp hp with rfl | hp2
      · intro hmem
        rcases List.mem_cons.mp hmem with he | hmem2
        · exact hc he.symm
        · exact ih h0 (hl ▸ List.mem_cons_self h0 r) hmem2
      · exact ih p (hl ▸ List.mem_cons_of_mem h0 hp2)

theorem mem_of_mem_jsTrim (s : Str) (x : Char) (h : x ∈ jsTrim s) : x ∈ s := by
  unfold jsTrim at h
  rw [List.mem_reverse] at h
  have h2 := (List.dropWhile_sublist (l := (s.dropWhile isJsWs).reverse) isJsWs).mem h
  rw [List.mem_reverse] at h2
  exact (List.dropWhile_sublist isJsWs).mem h2

/-- C3: any line that appears (after trimming) in the combined content and is
non-empty appears exactly once in the output of the aggregation, and the
output contains no empty line — dedup is by exact equality of the full
trimmed line. -/
theorem generateCombinedNodeList_dedup (m : Str) (subs : List Str) (L : Str)
    (hL : L ≠ [])
    (hmem : L ∈ ((m ++ '\n' :: List.intercalate ['\n'] subs).splitOn '\n').map jsTrim) :
    ((combineAndDedup m subs).splitOn '\n').count L = 1 ∧
    [] ∉ (combineAndDedup m subs).splitOn '\n' := by
  have hLF : L ∈ (((m ++ '\n' :: List.intercalate ['\n'] subs).splitOn '\n').map
      jsTrim).filter (fun l => ¬ l = []) :=
    List.mem_filter.mpr ⟨hmem, by simp [hL]⟩
  have hcount : (dedupKeepFirst ((((m ++ '\n' :: List.intercalate ['\n'] subs).splitOn
      '\n').map jsTrim).filter (fun l => ¬ l = []))).count L = 1 := by
    rw [dedupKeepFirst, count_dedupSeen]
    rw [if_neg (List.not_mem_nil L), if_pos hLF]
  have hDne : dedupKeepFirst ((((m ++ '\n' :: List.intercalate ['\n'] subs).splitOn
      '\n').map jsTrim).filter (fun l => ¬ l = [])) ≠ [] := by
    intro h0
    rw [h0] at hcount
    simp at hcount
  have hsub : ∀ x ∈ dedupKeepFirst ((((m ++ '\n' :: List.intercalate ['\n'] subs).splitOn
      '\n').map jsTrim).filter (fun l => ¬ l = [])),
      x ∈ (((m ++ '\n' :: List.intercalate ['\n'] subs).splitOn '\n').map
        jsTrim).filter (fun l => ¬ l = []) :=
    fun x hx => mem_of_mem_dedupSeen _ [] x hx
  have hnosep : ∀ l ∈ dedupKeepFirst ((((m ++ '\n' :: List.intercalate ['\n'] subs).splitOn
      '\n').map jsTrim).filter (fun l => ¬ l = [])), '\n' ∉ l := by
    intro l hl hnl
    have hlF := hsub l hl
    have hlT := (List.mem_filter.mp hlF).1
    obtain ⟨p, hp, hpe⟩ := List.mem_map.mp hlT
    exact mem_splitOn_not_sep _ p hp (mem_of_mem_jsTrim p '\n' (hpe ▸ hnl))
  have hspl : (combineAndDedup m subs).splitOn '\n'
      = dedupKeepFirst ((((m ++ '\n' :: List.intercalate ['\n'] subs).splitOn
          '\n').map jsTrim).filter (fun l => ¬ l = [])) := by
    unfold combineAndDedup
    exact List.splitOn_intercalate _ '\n' hnosep hDne
  refine ⟨by rw [hspl]; exact hcount, ?_⟩
  rw [hspl]
  intro hmem0
  have := (List.mem_filter.mp (hsub [] hmem0)).2
  simp at this

/-- Concrete instance of the C3 theorem: the line `trojan://a` repeated three
times (with stray blanks) collapses to a single occurrence and blank lines
disappear. -/
theorem generateCombinedNodeList_dedup_witness :
    ("trojan://a".data : Str) ≠ [] ∧
    "trojan://a".data ∈ ((" trojan://a".data ++ '\n' ::
      List.intercalate ['\n'] ["trojan://a".data, "".data, "trojan://a".data]).splitOn
        '\n').map jsTrim ∧
    ((combineAndDedup (" trojan://a".data)
        ["trojan://a".data, "".data, "trojan://a".data]).splitOn '\n').count
      "trojan://a".data = 1 ∧
    [] ∉ (combineAndDedup (" trojan://a".data)
        ["trojan://a".data, "".data, "trojan://a".data]).splitOn '\n' :=
  ⟨by decide, by decide,
    generateCombinedNodeList_dedup (" trojan://a".data)
      ["trojan://a".data, "".data, "trojan://a".data] ("trojan://a".data)
      (by decide) (by decide)⟩

/-! ## Injection filter (src/functions/[[path]].js, lines 306-318)

Inside `generateCombinedNodeList`, fetched lines whose decoded fragment name
contains the literal substring `https://` are dropped; a fragment that fails
`decodeURIComponent` is also dropped; a line with no `#` is kept. -/

/-- Split at the first occurrence of the substring `pat`:
`some (before, after)` (models `indexOf` on substrings and `includes`). -/
def firstSplitSub (pat : Str) : Str → Option (Str × Str)
  | [] => if pat.isPrefixOf ([] : Str) then some ([], []) else none
  | a :: t =>
    if pat.isPrefixOf (a :: t) then some ([], (a :: t).drop pat.length)
    else (firstSplitSub pat t).map (fun p => (a :: p.1, p.2))

/-- Model of `String.prototype.includes`. -/
def containsSub (pat s : Str) : Bool := (firstSplitSub pat s).isSome

/-- Per-line keep-predicate of the anti-injection filter. -/
def nodeNameFilterKeeps (nodeLink : Str) : Bool :=
  match lastSplit '#' nodeLink with
  | none => true
  | some (_, frag) =>
    match decodeURIComponent frag with
    | none => false
    | some nodeName => ! containsSub ("https://".data) nodeName

def filterInvalidNames (nodes : List Str) : List Str := nodes.filter nodeNameFilterKeeps

/-- Spec-side notion for comparison: the spec's words reject a name that
contains an "embedded URL scheme marker", which covers at least the two
web scheme markers. -/
def specHasUrlSchemeMarker (name : Str) : Bool :=
  containsSub ("http://".data) name || containsSub ("https://".data) name

/-- C7 counterexample: a line whose decoded display name contains the URL
scheme marker `http://` (not `https://`) survives the filter, refuting the
spec's claim that every line with an embedded URL scheme marker is rejected. -/
theorem nodeNameFilter_http_kept :
    ¬ (∀ (nodes : List Str) (line base frag nm : Str), line ∈ nodes →
        lastSplit '#' line = some (base, frag) →
        decodeURIComponent frag = some nm →
        specHasUrlSchemeMarker nm = true →
        line ∉ filterInvalidNames nodes) := by
  intro hall
  have hmem : ("trojan://x@h:1#visit%20http%3A%2F%2Fevil".data : Str)
      ∈ filterInvalidNames ["trojan://x@h:1#visit%20http%3A%2F%2Fevil".data] := by
    simp +decide [filterInvalidNames, nodeNameFilterKeeps, lastSplit, decodeURIComponent,
      pctBytes?, utf8Decode?, hexVal?, utf8EncodeChar, containsSub, firstSplitSub]
  exact hall ["trojan://x@h:1#visit%20http%3A%2F%2Fevil".data]
    ("trojan://x@h:1#visit%20http%3A%2F%2Fevil".data)
    ("trojan://x@h:1".data) ("visit%20http%3A%2F%2Fevil".data)
    ("visit http://evil".data)
    (by simp)
    (by simp +decide [lastSplit])
    (by simp +decide [decodeURIComponent, pctBytes?, utf8Decode?, hexVal?, utf8EncodeChar])
    (by decide)
    hmem

/-- C7 (amended): among the lines fed to the filter, a line with a `#`
fragment is kept iff its fragment percent-decodes and the decoded name does
not contain the literal substring `https://`; names embedding other scheme
markers such as `http://` are kept. -/
theorem filterInvalidNames_amended (nodes : List Str) (line : Str)
    (h : line ∈ nodes) :
    line ∈ filterInvalidNames nodes ↔
      (∀ base frag, lastSplit '#' line = some (base, frag) →
        ∃ nm, decodeURIComponent frag = some nm ∧
          containsSub ("https://".data) nm = false) := by
  unfold filterInvalidNames
  rw [List.mem_filter]
  simp only [h, true_and]
  unfold nodeNameFilterKeeps
  cases hls : lastSplit '#' line with
  | none => simp [hls]
  | some p =>
    obtain ⟨b, f⟩ := p
    cases hdc : decodeURIComponent f with
    | none => simp [hls, hdc]
    | some nm => simp [hls, hdc]

/-- Concrete instance of the amended C7 theorem: a kept line with an `https://`
marker in its decoded name is rejected, via the right-to-left direction. -/
theorem filterInvalidNames_amended_witness :
    ("trojan://a#x".data : Str) ∈ ["trojan://a#x".data] ∧
    ("trojan://a#x".data : Str) ∈ filterInvalidNames ["trojan://a#x".data] :=
  ⟨by simp,
    (filterInvalidNames_amended ["trojan://a#x".data] ("trojan://a#x".data)
      (by simp)).mpr
      (by
        intro base frag hbf
        refine ⟨"x".data, ?_, by decide⟩
        have hf : frag = "x".data := by
          have : lastSplit '#' ("trojan://a#x".data) = some ("trojan://a".data, "x".data) := by
            simp +decide [lastSplit]
          rw [this] at hbf
          exact ((Prod.mk.injEq _ _ _ _ ▸ (Option.some.injEq _ _ ▸ hbf)).2).symm
        rw [hf]
        simp +decide [decodeURIComponent, pctBytes?, utf8Decode?, utf8EncodeChar])⟩

/-! ## Expired-profile resolution (src/unnamed/part_000, lines 58-94 and 281-309)

When a profile lookup succeeds, the profile is enabled, and its `expiresAt`
lies in the past, `targetMisubs` is replaced by the single sentinel expired
node regardless of the profile's subscription and manual-node membership;
the base64 branch then encodes `DEFAULT_EXPIRED_NODE + '\n'`. -/

structure MiSubEntry where
  id : Str
  url : Str
  name : Str
  enabled : Bool
  isExpiredNode : Bool
deriving DecidableEq

structure MiProfile where
  id : Str
  name : Str
  enabled : Bool
  expiresAt : Option Int
  subscriptions : List Str
  manualNodes : List Str
deriving DecidableEq

def DEFAULT_EXPIRED_NODE : Str :=
  "trojan://00000000-0000-0000-0000-000000000000@127.0.0.1:443#".data
    ++ encodeURIComponent ("您的订阅已失效".data)

/-- The sentinel entry `{ id: 'expired-node', url: DEFAULT_EXPIRED_NODE,
name: '您的订阅已到期', isExpiredNode: true }`; the literal carries no
`enabled` key, so a read would yield `undefined` (falsy). -/
def expiredEntry : MiSubEntry :=
  ⟨"expired-node".data, DEFAULT_EXPIRED_NODE, "您的订阅已到期".data, false, true⟩

/-- Expiry test: `profile.expiresAt` truthy and `now > new Date(expiresAt)`,
with dates modelled as integer timestamps. -/
def isProfileExpiredAt (p : MiProfile) (now : Int) : Bool :=
  match p.expiresAt with
  | none => false
  | some t => now > t

/-- Resolution of `targetMisubs` for a found profile: `none` when the profile
is disabled (the source then falls through to an error response), otherwise
the sentinel list on expiry or the membership filter. -/
def resolveTargetMisubs (profile : MiProfile) (allMisubs : List MiSubEntry)
    (now : Int) : Option (List MiSubEntry) :=
  if profile.enabled then
    some
      (if isProfileExpiredAt profile now then [expiredEntry]
       else allMisubs.filter (fun item =>
        let isSubscription := ("http".data).isPrefixOf item.url
        item.enabled &&
          ((isSubscription && profile.subscriptions.contains item.id) ||
            (!isSubscription && profile.manualNodes.contains item.id))))
  else none

/-- Content the base64 branch encodes. -/
def base64ContentToEncode (expired : Bool) (combinedNodeList : Str) : Str :=
  if expired then DEFAULT_EXPIRED_NODE ++ ['\n'] else combinedNodeList

/-- C4: for every enabled profile whose `expiresAt` is in the past, resolution
yields exactly the single sentinel expired node regardless of the profile's
membership and of the available entries, and the base64 branch encodes the
sentinel line followed by a newline. -/
theorem profile_expired_sentinel (profile : MiProfile) (allMisubs : List MiSubEntry)
    (now t : Int) (combined : Str)
    (hen : profile.enabled = true) (hexp : profile.expiresAt = some t) (ht : t < now) :
    resolveTargetMisubs profile allMisubs now = some [expiredEntry] ∧
    base64ContentToEncode (isProfileExpiredAt profile now) combined
      = DEFAULT_EXPIRED_NODE ++ ['\n'] := by
  have hexp2 : isProfileExpiredAt profile now = true := by
    simp [isProfileExpiredAt, hexp]
    omega
  constructor
  · simp [resolveTargetMisubs, hen, hexp2]
  · simp [base64ContentToEncode, hexp2]

/-- Concrete instance of the C4 theorem: an expired profile that lists an
enabled member still resolves to the sentinel only. -/
theorem profile_expired_sentinel_witness :
    (MiProfile.mk ("p1".data) ("prof".data) true (some 50) ["s1".data] []).enabled = true ∧
    (MiProfile.mk ("p1".data) ("prof".data) true (some 50) ["s1".data] []).expiresAt
      = some 50 ∧
    (50 : Int) < 100 ∧
    resolveTargetMisubs (MiProfile.mk ("p1".data) ("prof".data) true (some 50) ["s1".data] [])
      [MiSubEntry.mk ("s1".data) ("https://e.example".data) ("e".data) true false] 100
      = some [expiredEntry] :=
  ⟨rfl, rfl, by decide,
    (profile_expired_sentinel
      (MiProfile.mk ("p1".data) ("prof".data) true (some 50) ["s1".data] [])
      [MiSubEntry.mk ("s1".data) ("https://e.example".data) ("e".data) true false]
      100 50 [] rfl rfl (by decide)).1⟩

/-! ## Converter-failure fallback (src/unnamed/part_000, lines 379-397)

After the converter stage throws, `handleMisubRequest` builds
`errorMessage = lastError.message + '. Tried: ' + triedEndpoints.join(', ')`
(with `triedEndpoints` always empty in this code path), and, when the
aggregated `combinedNodeList` is truthy, returns status 200 with the base64
of the list, headers `X-MiSub-Fallback: base64`, the cache headers, and
`X-MiSub-Error` set to the first 200 characters of the message; otherwise a
502 with a plain error body. -/

structure HttpResponse where
  status : Nat
  body : Str
  headers : List (Str × Str)
deriving DecidableEq

def asciiLower (c : Char) : Char :=
  if 65 ≤ c.toNat ∧ c.toNat ≤ 90 then Char.ofNat (c.toNat + 32) else c

/-- Header names are case-insensitive; the `Headers` model stores them
lowercased. -/
def headerName (k : Str) : Str := k.map asciiLower

/-- `Headers.set`: replace the value of an existing name or append. -/
def headersSet (hs : List (Str × Str)) (k v : Str) : List (Str × Str) :=
  match hs with
  | [] => [(headerName k, v)]
  | (k2, v2) :: t =>
    if k2 = headerName k then (k2, v) :: t else (k2, v2) :: headersSet t k v

def headersGet (hs : List (Str × Str)) (k : Str) : Option Str :=
  match hs with
  | [] => none
  | (k2, v2) :: t => if k2 = headerName k then some v2 else headersGet t k

/-- `errorMessage` as built at line 359: `triedEndpoints` is the empty array,
so `join(', ')` contributes nothing after the constant suffix. -/
def converterErrorMessage (lastErrorMsg : Str) : Str :=
  lastErrorMsg ++ ". Tried: ".data

/-- The response tail of `handleMisubRequest` once every converter candidate
has failed (the 502 response carries the constructor's default headers,
modelled as the empty list). -/
def converterFailureResponse (errorMessage combinedNodeList : Str)
    (cacheHeaders : List (Str × Str)) : HttpResponse :=
  if combinedNodeList ≠ [] then
    HttpResponse.mk 200 (btoa (utf8Encode combinedNodeList))
      (headersSet
        (cacheHeaders.foldl (fun hs kv => headersSet hs kv.1 kv.2)
          (headersSet
            (headersSet
              (headersSet [] ("Content-Type".data) ("text/plain; charset=utf-8".data))
              ("Cache-Control".data) ("no-store, no-cache".data))
            ("X-MiSub-Fallback".data) ("base64".data)))
        ("X-MiSub-Error".data) (errorMessage.take 200))
  else
    HttpResponse.mk 502 ("Error connecting to subconverter: ".data ++ errorMessage) []

theorem headersGet_headersSet_same (hs : List (Str × Str)) (k v : Str) :
    headersGet (headersSet hs k v) k = some v := by
  induction hs with
  | nil => simp [headersSet, headersGet]
  | cons p t ih =>
    obtain ⟨k2, v2⟩ := p
    by_cases hk : k2 = headerName k
    · simp [headersSet, headersGet, hk]
    · simp [headersSet, headersGet, hk, ih]

theorem headersGet_headersSet_presence (hs : List (Str × Str)) (k k2 : Str) (v2 : Str)
    (h : headersGet hs k ≠ none) : headersGet (headersSet hs k2 v2) k ≠ none := by
  induction hs with
  | nil => exact absurd rfl h
  | cons p t ih =>
    obtain ⟨k3, v3⟩ := p
    by_cases hk3 : k3 = headerName k2
    · rw [headersSet, if_pos hk3]
      by_cases hk : k3 = headerName k
      · rw [headersGet, if_pos hk]
        simp
      · rw [headersGet, if_neg hk]
        rw [headersGet, if_neg hk] at h
        exact h
    · rw [headersSet, if_neg hk3]
      by_cases hk : k3 = headerName k
      · rw [headersGet, if_pos hk]
        simp
      · rw [headersGet, if_neg hk]
        rw [headersGet, if_neg hk] at h
        exact ih h

theorem headersGet_foldl_presence (l : List (Str × Str)) (k : Str) :
    ∀ hs, headersGet hs k ≠ none →
      headersGet (l.foldl (fun hs kv => headersSet hs kv.1 kv.2) hs) k ≠ none := by
  induction l with
  | nil => intro hs h; exact h
  | cons kv t ih =>
    intro hs h
    exact ih (headersSet hs kv.1 kv.2) (headersGet_headersSet_presence hs k kv.1 kv.2 h)

/-- C1: when every converter candidate fails and the aggregated node list is
non-empty, the response has status 200 (never a hard error), its body is the
base64 of the aggregated list, the `X-MiSub-Fallback` diagnostic header is
present, and `X-MiSub-Error` carries the error message truncated to 200
characters. -/
theorem converter_failure_fallback (msg combined : Str)
    (cacheHeaders : List (Str × Str)) (hc : combined ≠ []) :
    (converterFailureResponse (converterErrorMessage msg) combined cacheHeaders).status
        = 200 ∧
    (converterFailureResponse (converterErrorMessage msg) combined cacheHeaders).body
        = btoa (utf8Encode combined) ∧
    headersGet
        (converterFailureResponse (converterErrorMessage msg) combined
          cacheHeaders).headers ("X-MiSub-Fallback".data) ≠ none ∧
    headersGet
        (converterFailureResponse (converterErrorMessage msg) combined
          cacheHeaders).headers ("X-MiSub-Error".data)
        = some ((converterErrorMessage msg).take 200) := by
  refine ⟨by simp [converterFailureResponse, hc], by simp [converterFailureResponse, hc],
    ?_, ?_⟩
  · simp only [converterFailureResponse, if_pos hc]
    apply headersGet_headersSet_presence
    apply headersGet_foldl_presence
    rw [headersGet_headersSet_same]
    simp
  · simp only [converterFailureResponse, if_pos hc]
    exact headersGet_headersSet_same _ _ _

/-- Concrete instance of the C1 theorem: a timeout on a non-empty aggregated
list degrades to a 200 base64 fallback with the diagnostic headers, even when
a cache header is merged in. -/
theorem converter_failure_fallback_witness :
    ("trojan://a".data : Str) ≠ [] ∧
    (converterFailureResponse (converterErrorMessage ("timeout".data))
        ("trojan://a".data) [("X-Cache-Status".data, "HIT".data)]).status = 200 ∧
    (converterFailureResponse (converterErrorMessage ("timeout".data))
        ("trojan://a".data) [("X-Cache-Status".data, "HIT".data)]).body
      = btoa (utf8Encode ("trojan://a".data)) ∧
    headersGet
        (converterFailureResponse (converterErrorMessage ("timeout".data))
          ("trojan://a".data) [("X-Cache-Status".data, "HIT".data)]).headers
        ("X-MiSub-Fallback".data) ≠ none := by
  have h := converter_failure_fallback ("timeout".data) ("trojan://a".data)
    [("X-Cache-Status".data, "HIT".data)] (by decide)
  exact ⟨by decide, h.1, h.2.1, h.2.2.1⟩

/-! ## `fetchSubscriptionWithFallback` (src/functions/modules/utils.js, lines 129-239)

The network effects are explicit inputs: the tier-1 direct fetch outcome, the
presence of KV storage, whether the settings read succeeds, the configured
`subConverter` setting, and the tier-2 converter fetch outcome.  The source's
early returns become an `Option` chain with the tiers as separate
definitions. -/

inductive FetchAttempt where
  | fail
  | success (ok : Bool) (text : Str)
deriving DecidableEq

structure FetchEnvModel where
  tier1 : FetchAttempt
  hasKV : Bool
  settingsOk : Bool
  subConverterSetting : Str
  tier2 : FetchAttempt
deriving DecidableEq

structure FetchResult where
  success : Bool
  content : Str
  userAgent : Str
  method : Str
  error : Option Str
deriving DecidableEq

/-- Challenge/error-page detection on the directly fetched text. -/
def challengePage (text : Str) : Bool :=
  containsSub ("Just a moment...".data) text ||
  containsSub ("cf-browser-verification".data) text ||
  containsSub ("Access denied".data) text ||
  containsSub ("Error 403".data) text

/-- Binary-string decode of `atob` output (char codes are the bytes). -/
def latin1Decode (bytes : List Nat) : Str := bytes.map Char.ofNat

/-- Tier 1 (direct fetch): `some` is an early `return`. -/
def tier1Result (preferredUserAgent : Str) (t : FetchAttempt) : Option FetchResult :=
  match t with
  | .fail => none
  | .success ok text =>
    if ok then
      if challengePage text then none
      else if 0 < (jsTrim text).length then
        some ⟨true, text, preferredUserAgent, "direct".data, none⟩
      else none
    else none

/-- Tier 2 (subconverter-mediated fetch): `some` is an early `return`. -/
def tier2Result (hasKV settingsOk : Bool) (subConverterSetting : Str)
    (t : FetchAttempt) : Option FetchResult :=
  if hasKV then
    if settingsOk then
      if jsTrim subConverterSetting ≠ [] then
        match t with
        | .fail => none
        | .success ok text =>
          if ok then
            match atob (text.filter (fun c => !isJsWs c)) with
            | some bytes =>
              some ⟨true, latin1Decode bytes, "subconverter".data, "subconverter".data, none⟩
            | none => some ⟨true, text, "subconverter".data, "subconverter".data, none⟩
          else none
      else none
    else none
  else none

def failedFetchResult : FetchResult :=
  ⟨false, [], "none".data, "failed".data, some ("直接获取和 subconverter 都失败".data)⟩

def fetchSubscriptionWithFallback (preferredUserAgent : Str) (e : FetchEnvModel) :
    FetchResult :=
  match tier1Result preferredUserAgent e.tier1 with
  | some r => r
  | none =>
    match tier2Result e.hasKV e.settingsOk e.subConverterSetting e.tier2 with
    | some r => r
    | none => failedFetchResult

theorem tier1Result_shape (pua : Str) (t : FetchAttempt) (r : FetchResult)
    (h : tier1Result pua t = some r) :
    ∃ text, r = ⟨true, text, pua, "direct".data, none⟩ := by
  cases t with
  | fail => simp [tier1Result] at h
  | success ok text =>
    by_cases hok : ok = true
    · by_cases hch : challengePage text = true
      · simp [tier1Result, hok, hch] at h
      · by_cases htr : 0 < (jsTrim text).length
        · simp [tier1Result, hok, hch, htr] at h
          exact ⟨text, h.symm⟩
        · simp [tier1Result, hok, hch, htr] at h
    · simp [tier1Result, hok] at h

theorem tier2Result_shape (hasKV settingsOk : Bool) (scs : Str) (t : FetchAttempt)
    (r : FetchResult) (h : tier2Result hasKV settingsOk scs t = some r) :
    ∃ content, r = ⟨true, content, "subconverter".data, "subconverter".data, none⟩ := by
  by_cases hkv : hasKV = true
  · by_cases hso : settingsOk = true
    · by_cases hsc : jsTrim scs ≠ []
      · cases t with
        | fail => simp [tier2Result, hkv, hso, hsc] at h
        | success ok text =>
          by_cases hok : ok = true
          · cases hat : atob (text.filter (fun c => !isJsWs c)) with
            | none =>
              simp [tier2Result, hkv, hso, hsc, hok, hat] at h
              exact ⟨text, h.symm⟩
            | some bytes =>
              simp [tier2Result, hkv, hso, hsc, hok, hat] at h
              exact ⟨latin1Decode bytes, h.symm⟩
          · simp [tier2Result, hkv, hso, hsc, hok] at h
      · simp [tier2Result, hkv, hso, hsc] at h
    · simp [tier2Result, hkv, hso] at h
  · simp [tier2Result, hkv] at h

/-- C5 counterexample: with the direct fetch failing and the converter tier
succeeding, the result's `method` is `subconverter`, which is none of the
spec's three values `direct`, `indirect`, `failed`. -/
theorem fetchSubscription_method_counterexample :
    ¬ (∀ (pua : Str) (e : FetchEnvModel),
        (fetchSubscriptionWithFallback pua e).method = "direct".data ∨
        (fetchSubscriptionWithFallback pua e).method = "indirect".data ∨
        (fetchSubscriptionWithFallback pua e).method = "failed".data) := by
  intro hall
  exact absurd
    (hall ("v2rayN/7.23".data)
      ⟨.fail, true, true, "sub.example".data, .success true ("dHJvamFuOi8vYQ==".data)⟩)
    (by decide)

/-- C5 (amended): the result's `method` is always one of `direct`,
`subconverter`, `failed` — tier-1 success yields `direct`, tier-2 success
yields `subconverter` (not `indirect`), and when both tiers fail the result
has `success = false`, `method = failed` and the human-readable aggregated
error. -/
theorem fetchSubscription_method_amended (pua : Str) (e : FetchEnvModel) :
    ((fetchSubscriptionWithFallback pua e).method = "direct".data ∨
      (fetchSubscriptionWithFallback pua e).method = "subconverter".data ∨
      (fetchSubscriptionWithFallback pua e).method = "failed".data) ∧
    ((fetchSubscriptionWithFallback pua e).method = "failed".data →
      (fetchSubscriptionWithFallback pua e).success = false ∧
      (fetchSubscriptionWithFallback pua e).error
        = some ("直接获取和 subconverter 都失败".data)) := by
  unfold fetchSubscriptionWithFallback
  cases h1 : tier1Result pua e.tier1 with
  | some r =>
    obtain ⟨text, rfl⟩ := tier1Result_shape pua e.tier1 r h1
    simp
  | none =>
    cases h2 : tier2Result e.hasKV e.settingsOk e.subConverterSetting e.tier2 with
    | some r =>
      obtain ⟨content, rfl⟩ := tier2Result_shape _ _ _ _ r h2
      simp
    | none => simp [failedFetchResult]

/-! ## CacheManager single-flight (spec §4.5)

The cache manager (`resolveNodeListWithCache`) is not among the repository's
source files, so the component is modelled from the specification's state
machine.  Per the spec's concurrency model, arrivals interleave atomically at
the cache entry (execution yields only at network calls), so a burst of
concurrent `resolve()` calls is a sequence of atomic arrival steps taken
before the scheduled refresh completes. -/

/-- Modelled from the spec: the per-key entry status
`Missing → Refreshing → Fresh → Stale → Refreshing → …`. -/
inductive CacheStatus where
  | missing
  | fresh
  | stale
  | refreshing
deriving DecidableEq

/-- Modelled from the spec: a per-key cache entry together with a counter of
how many times `refreshFn` has been invoked for this key. -/
structure CacheState where
  status : CacheStatus
  content : Str
  refreshInvocations : Nat
deriving DecidableEq

/-- Modelled from the spec: one atomic `resolve()` arrival (with
`forceRefresh = false`).  `missing` awaits `refreshFn` synchronously and
becomes fresh with its result; `fresh` serves the cached content; `stale`
serves the stale content and schedules one `refreshFn` (entry
`refreshing`); `refreshing` attaches to the in-flight refresh and serves the
existing content without starting a second one. -/
def resolveArrival (s : CacheState) (refreshedContent : Str) : CacheState × Str :=
  match s.status with
  | .missing =>
    (⟨.fresh, refreshedContent, s.refreshInvocations + 1⟩, refreshedContent)
  | .fresh => (s, s.content)
  | .stale => (⟨.refreshing, s.content, s.refreshInvocations + 1⟩, s.content)
  | .refreshing => (s, s.content)

/-- Modelled from the spec: a burst of `n` concurrent arrivals for one key,
interleaved before the in-flight refresh completes; returns the final state
and the list of served contents. -/
def resolveBurst (s : CacheState) (refreshedContent : Str) :
    Nat → CacheState × List Str
  | 0 => (s, [])
  | n + 1 =>
    let (s2, served) := resolveArrival s refreshedContent
    let (sEnd, rest) := resolveBurst s2 refreshedContent n
    (sEnd, served :: rest)

theorem resolveBurst_refreshing (refreshedContent : Str) (n : Nat) :
    ∀ s : CacheState, s.status = .refreshing →
      resolveBurst s refreshedContent n = (s, List.replicate n s.content) := by
  induction n with
  | zero => intro s hs; simp [resolveBurst]
  | succ n ih =>
    intro s hs
    have harr : resolveArrival s refreshedContent = (s, s.content) := by
      rw [resolveArrival, hs]
    rw [resolveBurst, harr]
    simp [ih s hs, List.replicate_succ]

/-- C2: for a stale entry with no in-flight refresh, a burst of `n ≥ 1`
concurrent `resolve()` calls triggers exactly one `refreshFn` invocation, and
every caller is served the existing cached content. -/
theorem cache_single_flight (s : CacheState) (refreshedContent : Str) (n : Nat)
    (hs : s.status = .stale) (hn : 1 ≤ n) :
    (resolveBurst s refreshedContent n).1.refreshInvocations
        = s.refreshInvocations + 1 ∧
    (resolveBurst s refreshedContent n).2 = List.replicate n s.content := by
  obtain ⟨m, rfl⟩ : ∃ m, n = m + 1 := ⟨n - 1, by omega⟩
  have harr : resolveArrival s refreshedContent
      = (⟨.refreshing, s.content, s.refreshInvocations + 1⟩, s.content) := by
    rw [resolveArrival, hs]
  rw [resolveBurst, harr]
  have hrest := resolveBurst_refreshing refreshedContent m
    ⟨.refreshing, s.content, s.refreshInvocations + 1⟩ rfl
  simp [hrest, List.replicate_succ]

/-- Concrete instance of the C2 theorem: ten concurrent resolves of a stale
key invoke the refresh exactly once and all serve the cached content. -/
theorem cache_single_flight_witness :
    (CacheState.mk .stale ("trojan://a".data) 0).status = .stale ∧
    (1 : Nat) ≤ 10 ∧
    (resolveBurst (CacheState.mk .stale ("trojan://a".data) 0) ("new".data)
        10).1.refreshInvocations = 1 ∧
    (resolveBurst (CacheState.mk .stale ("trojan://a".data) 0) ("new".data) 10).2
      = List.replicate 10 ("trojan://a".data) := by
  have h := cache_single_flight (CacheState.mk .stale ("trojan://a".data) 0)
    ("new".data) 10 rfl (by decide)
  exact ⟨rfl, by decide, h.1, h.2⟩

/-! ## `getCallbackToken` (src/functions/modules/utils.js, lines 433-440)

The callback token is the first 16 lowercase-hex characters of
HMAC-SHA256(secret, 'callback-static-data'), with
`secret = env.COOKIE_SECRET || 'default-callback-secret'`; the check at
src/unnamed/part_000 line 316 compares the query parameter against this
value and consults no clock.  SHA-256 is implemented below over `Nat`
arithmetic modulo `2^32`. -/

/-- Right rotation of a 32-bit word (input assumed `< 2^32`). -/
def rotr (n x : Nat) : Nat := x / 2 ^ n + x % 2 ^ n * 2 ^ (32 - n)

def bsig0 (x : Nat) : Nat := rotr 2 x ^^^ rotr 13 x ^^^ rotr 22 x

def bsig1 (x : Nat) : Nat := rotr 6 x ^^^ rotr 11 x ^^^ rotr 25 x

def ssig0 (x : Nat) : Nat := rotr 7 x ^^^ rotr 18 x ^^^ x / 2 ^ 3

def ssig1 (x : Nat) : Nat := rotr 17 x ^^^ rotr 19 x ^^^ x / 2 ^ 10

def sha256K : List Nat := [
  1116352408, 1899447441, 3049323471, 3921009573, 961987163,
  1508970993, 2453635748, 2870763221, 3624381080, 310598401,
  607225278, 1426881987, 1925078388, 2162078206, 2614888103,
  3248222580, 3835390401, 4022224774, 264347078, 604807628,
  770255983, 1249150122, 1555081692, 1996064986, 2554220882,
  2821834349, 2952996808, 3210313671, 3336571891, 3584528711,
  113926993, 338241895, 666307205, 773529912, 1294757372,
  1396182291, 1695183700, 1986661051, 2177026350, 2456956037,
  2730485921, 2820302411, 3259730800, 3345764771, 3516065817,
  3600352804, 4094571909, 275423344, 430227734, 506948616,
  659060556, 883997877, 958139571, 1322822218, 1537002063,
  1747873779, 1955562222, 2024104815, 2227730452, 2361852424,
  2428436474, 2756734187, 3204031479, 3329325298]

def sha256H0 : List Nat := [
  1779033703, 3144134277, 1013904242, 2773480762,
  1359893119, 2600822924, 528734635, 1541459225]

/-- Big-endian 32-bit words from a byte stream (full 4-byte groups). -/
def bytesToWords : List Nat → List Nat
  | b1 :: b2 :: b3 :: b4 :: rest =>
    (b1 * 2 ^ 24 + b2 * 2 ^ 16 + b3 * 2 ^ 8 + b4) :: bytesToWords rest
  | _ => []

def wordToBytes (w : Nat) : List Nat :=
  [w / 2 ^ 24 % 256, w / 2 ^ 16 % 256, w / 2 ^ 8 % 256, w % 256]

/-- One extension step of the message schedule. -/
def extendStep (ws : List Nat) : List Nat :=
  ws ++ [(ssig1 (ws.getD (ws.length - 2) 0) + ws.getD (ws.length - 7) 0 +
    ssig0 (ws.getD (ws.length - 15) 0) + ws.getD (ws.length - 16) 0) % 2 ^ 32]

def extendSchedule : Nat → List Nat → List Nat
  | 0, ws => ws
  | n + 1, ws => extendSchedule n (extendStep ws)

/-- One round of the SHA-256 compression function on the 8-word working
state, for one `(K[i], w[i])` pair. -/
def compressStep (st : List Nat) (kw : Nat × Nat) : List Nat :=
  let a := st.getD 0 0
  let b := st.getD 1 0
  let c := st.getD 2 0
  let d := st.getD 3 0
  let e := st.getD 4 0
  let f := st.getD 5 0
  let g := st.getD 6 0
  let h := st.getD 7 0
  let ch := (e &&& f) ^^^ ((e ^^^ 0xffffffff) &&& g)
  let temp1 := (h + bsig1 e + ch + kw.1 + kw.2) % 2 ^ 32
  let maj := (a &&& b) ^^^ (a &&& c) ^^^ (b &&& c)
  let temp2 := (bsig0 a + maj) % 2 ^ 32
  [(temp1 + temp2) % 2 ^ 32, a, b, c, (d + temp1) % 2 ^ 32, e, f, g]

def compressChunk (h : List Nat) (chunk : List Nat) : List Nat :=
  let w := extendSchedule 48 (bytesToWords chunk)
  let st := (sha256K.zip w).foldl compressStep h
  List.zipWith (fun x y => (x + y) % 2 ^ 32) h st

/-- 64-bit big-endian length field. -/
def lenBE (n : Nat) : List Nat :=
  [n / 2 ^ 56 % 256, n / 2 ^ 48 % 256, n / 2 ^ 40 % 256, n / 2 ^ 32 % 256,
   n / 2 ^ 24 % 256, n / 2 ^ 16 % 256, n / 2 ^ 8 % 256, n % 256]

/-- SHA-256 padding: `0x80`, zeros to 56 mod 64, then the bit length. -/
def sha256Pad (msg : List Nat) : List Nat :=
  msg ++ 0x80 :: (List.replicate ((119 - msg.length % 64) % 64) 0
    ++ lenBE (msg.length * 8))

def chunks64 : List Nat → List (List Nat)
  | [] => []
  | b :: rest => ((b :: rest).take 64) :: chunks64 ((b :: rest).drop 64)
termination_by l => l.length
decreasing_by simp; omega

def sha256 (msg : List Nat) : List Nat :=
  (((chunks64 (sha256Pad msg)).foldl compressChunk sha256H0).map wordToBytes).flatten

/-- HMAC-SHA256 (RFC 2104) with the 64-byte SHA-256 block size. -/
def hmacSha256 (key msg : List Nat) : List Nat :=
  let key2 := if 64 < key.length then sha256 key else key
  let key3 := key2 ++ List.replicate (64 - key2.length) 0
  let ipadKey := key3.map (fun b => b ^^^ 0x36)
  let opadKey := key3.map (fun b => b ^^^ 0x5c)
  sha256 (opadKey ++ sha256 (ipadKey ++ msg))

/-- `b.toString(16).padStart(2, '0')` for a byte, joined over the digest. -/
def bytesToHex (bs : List Nat) : Str :=
  (bs.map (fun b => [hexDigitLower (b / 16 % 16), hexDigitLower (b % 16)])).flatten

/-- Model of `getCallbackToken`, parameterised by the resolved secret
(`env.COOKIE_SECRET || 'default-callback-secret'`). -/
def getCallbackToken (secret : Str) : Str :=
  (bytesToHex (hmacSha256 (utf8Encode secret)
    (utf8Encode ("callback-static-data".data)))).take 16

/-- The callback check of src/unnamed/part_000 line 316 at time `now`: the
comparison is a pure string equality and consults no clock, so `now` is
ignored. -/
def callbackTokenValidAt (secret provided : Str) (now : Int) : Bool :=
  provided == getCallbackToken secret

/-- C9 counterexample: the callback token is not time-limited — there is no
time bound after which the token stops validating; the once-issued token for
the default secret validates at every later time. -/
theorem callbackToken_never_expires :
    ¬ ∃ B : Int, ∀ t : Int, B < t →
        callbackTokenValidAt ("default-callback-secret".data)
          (getCallbackToken ("default-callback-secret".data)) t = false := by
  rintro ⟨B, hB⟩
  have h := hB (B + 1) (by omega)
  simp [callbackTokenValidAt] at h

theorem length_foldl_compressStep (l : List (Nat × Nat)) :
    ∀ st : List Nat, st.length = 8 → (l.foldl compressStep st).length = 8 := by
  induction l with
  | nil => intro st h; exact h
  | cons kw t ih =>
    intro st h
    exact ih (compressStep st kw) rfl

theorem length_compressChunk (h : List Nat) (chunk : List Nat)
    (hh : h.length = 8) : (compressChunk h chunk).length = 8 := by
  unfold compressChunk
  rw [List.length_zipWith, length_foldl_compressStep _ h hh, hh]
  decide

theorem length_foldl_compressChunk (cs : List (List Nat)) :
    ∀ h : List Nat, h.length = 8 → (cs.foldl compressChunk h).length = 8 := by
  induction cs with
  | nil => intro h hh; exact hh
  | cons c t ih =>
    intro h hh
    exact ih (compressChunk h c) (length_compressChunk h c hh)

theorem sha256_length (msg : List Nat) : (sha256 msg).length = 32 := by
  unfold sha256
  rw [List.length_flatten]
  have h8 := length_foldl_compressChunk (chunks64 (sha256Pad msg)) sha256H0 rfl
  generalize hhs : (chunks64 (sha256Pad msg)).foldl compressChunk sha256H0 = hs
  rw [hhs] at h8
  have : (hs.map wordToBytes).map List.length = hs.map (fun _ => 4) := by
    rw [List.map_map]
    rfl
  rw [this, List.map_const', h8, List.sum_replicate]
  simp

theorem bytesToHex_length (bs : List Nat) : (bytesToHex bs).length = 2 * bs.length := by
  induction bs with
  | nil => rfl
  | cons b t ih =>
    rw [show bytesToHex (b :: t)
      = [hexDigitLower (b / 16 % 16), hexDigitLower (b % 16)] ++ bytesToHex t from rfl,
      List.length_append, ih]
    simp [List.length_cons]
    omega

/-- C9 (amended): the callback token is a deterministic 16-hex-character
HMAC-SHA256 signature of static data under the server secret, and its
validity is independent of time — the token is static, not short-lived. -/
theorem callbackToken_static (secret provided : Str) (t t' : Int) :
    callbackTokenValidAt secret provided t = callbackTokenValidAt secret provided t' ∧
    (getCallbackToken secret).length = 16 := by
  refine ⟨rfl, ?_⟩
  unfold getCallbackToken
  rw [List.length_take, bytesToHex_length]
  have h32 : (hmacSha256 (utf8Encode secret)
      (utf8Encode ("callback-static-data".data))).length = 32 := by
    unfold hmacSha256
    exact sha256_length _
  rw [h32]
  decide

/-! ## `extractHostAndPort` (src/unnamed/part_001, lines 103-206)

String indices are modelled as the `Int` values JavaScript's `indexOf` /
`lastIndexOf` return (`-1` when absent); `substring` swaps its arguments
when `start > end`.  JavaScript values that can leak into the result
(`nodeConfig.add` can be any JSON value) are kept as `JVal`. -/

structure HostPort where
  host : JVal
  port : Str

/-- Split at the first occurrence of a character. -/
def firstSplit (c : Char) : Str → Option (Str × Str)
  | [] => none
  | a :: t => if a = c then some ([], t) else (firstSplit c t).map (fun p => (a :: p.1, p.2))

def indexOfI (c : Char) (s : Str) : Int :=
  match firstSplit c s with
  | none => -1
  | some (b, _) => b.length

def lastIndexOfI (c : Char) (s : Str) : Int :=
  match lastSplit c s with
  | none => -1
  | some (b, _) => b.length

/-- `String.prototype.substring` with in-range indices: swaps when
`start > end`. -/
def jsSubstring (s : Str) (a b : Nat) : Str := (s.take (max a b)).drop (min a b)

/-- The regex `/^[A-Za-z0-9+/=]+$/`. -/
def isB64ShapeChar (c : Char) : Bool :=
  (65 ≤ c.toNat && c.toNat ≤ 90) || (97 ≤ c.toNat && c.toNat ≤ 122) ||
  (48 ≤ c.toNat && c.toNat ≤ 57) || c = '+' || c = '/' || c = '='

def isB64Shape (s : Str) : Bool := !s.isEmpty && s.all isB64ShapeChar

/-- `s.split(':')` has length 2 exactly when `s` contains a single colon. -/
def splitColon2 (s : Str) : Option (Str × Str) :=
  match firstSplit ':' s with
  | none => none
  | some (b, aft) => if ':' ∈ aft then none else some (b, aft)

/-- JavaScript truthiness of a JSON value. -/
def jsTruthy : JVal → Bool
  | .jnull => false
  | .jbool b => b
  | .jnum n => !(n == 0)
  | .jstr s => !s.isEmpty
  | .jarr _ => true
  | .jobj _ => true

/-- Property read `cfg[k]`: throws on `null`, reads objects (last duplicate
wins, as after `JSON.parse`), `undefined` elsewhere. -/
def propGet (cfg : JVal) (k : Str) : Except Unit (Option JVal) :=
  match cfg with
  | .jnull => .error ()
  | .jobj fs => .ok (objGet fs k)
  | _ => .ok none

mutual

/-- `String(v)` for a JSON value. -/
def jsToString : JVal → Str
  | .jnull => "null".data
  | .jbool true => "true".data
  | .jbool false => "false".data
  | .jnum n => intToStr n
  | .jstr s => s
  | .jarr xs => jsArrayJoin xs
  | .jobj _ => "[object Object]".data

/-- `Array.prototype.join(',')` under `String(...)`: `null` elements become
empty strings. -/
def jsArrayJoin : List JVal → Str
  | [] => []
  | [.jnull] => []
  | [v] => jsToString v
  | .jnull :: w :: rest => ',' :: jsArrayJoin (w :: rest)
  | v :: w :: rest => jsToString v ++ ',' :: jsArrayJoin (w :: rest)

end

/-- The `catch` fallback of the vmess branch: split `mainPart` on `':'`. -/
def vmessCatch (mainPart : Str) : HostPort :=
  match splitColon2 mainPart with
  | some (h, p) => ⟨.jstr h, p⟩
  | none => ⟨.jstr [], []⟩

/-- The vmess branch of `extractHostAndPort`. -/
def vmessHostPort (mainPart : Str) : HostPort :=
  let base64Part :=
    match firstSplit '?' mainPart with
    | some (b, _) => b
    | none => mainPart
  if ¬ isB64Shape base64Part = true then
    match splitColon2 base64Part with
    | some (h, p) => ⟨.jstr h, p⟩
    | none => ⟨.jstr [], []⟩
  else
    match atob base64Part with
    | none => vmessCatch mainPart
    | some bytes =>
      match jsonParse (latin1Decode bytes) with
      | none => vmessCatch mainPart
      | some cfg =>
        match propGet cfg ("add".data) with
        | .error _ => vmessCatch mainPart
        | .ok addv =>
          match propGet cfg ("port".data) with
          | .error _ => vmessCatch mainPart
          | .ok portv =>
            ⟨(match addv with
              | some v => if jsTruthy v then v else .jstr []
              | none => .jstr []),
             (match portv with
              | some v => if jsTruthy v then jsToString v else []
              | none => [])⟩

/-- Authority slice for the generic branch: text after the last `@`, cut at
the first `?` and then the first `/`. -/
def serverPartOf (mainPart : Str) : Str :=
  let serverPart0 :=
    match lastSplit '@' mainPart with
    | some (_, aft) => aft
    | none => mainPart
  let serverPart1 :=
    match firstSplit '?' serverPart0 with
    | some (b, _) => b
    | none => serverPart0
  match firstSplit '/' serverPart1 with
  | some (b, _) => b
  | none => serverPart1

/-- The generic host:port parse with the IPv6 bracket special case. -/
def genericHostPort (mainPart : Str) : HostPort :=
  if (['['] : Str).isPrefixOf (serverPartOf mainPart) ∧
      0 < lastIndexOfI ']' (serverPartOf mainPart) ∧
      lastIndexOfI ']' (serverPartOf mainPart)
        < lastIndexOfI ':' (serverPartOf mainPart) then
    ⟨.jstr (jsSubstring (serverPartOf mainPart) 1
        (lastIndexOfI ']' (serverPartOf mainPart)).toNat),
      (serverPartOf mainPart).drop
        ((lastIndexOfI ':' (serverPartOf mainPart)).toNat + 1)⟩
  else if ¬ lastIndexOfI ':' (serverPartOf mainPart) = -1 then
    ⟨.jstr ((serverPartOf mainPart).take
        (lastIndexOfI ':' (serverPartOf mainPart)).toNat),
      (serverPartOf mainPart).drop
        ((lastIndexOfI ':' (serverPartOf mainPart)).toNat + 1)⟩
  else ⟨.jstr (serverPartOf mainPart), []⟩

/-- Model of `extractHostAndPort` from src/unnamed/part_001. -/
def extractHostAndPort (url : Str) : HostPort :=
  if url = [] then ⟨.jstr [], []⟩
  else
    match firstSplitSub ("://".data) url with
    | none => ⟨.jstr [], []⟩
    | some (protocol, _) =>
      let mainPartEnd : Nat :=
        if indexOfI '#' url = -1 then url.length else (indexOfI '#' url).toNat
      let mainPart := jsSubstring url (protocol.length + 3) mainPartEnd
      if protocol = "vmess".data then vmessHostPort mainPart
      else
        genericHostPort
          (if protocol = "ss".data ∨ protocol = "ssr".data then
            if indexOfI '@' mainPart = -1 ∧ isB64Shape mainPart = true then
              match atob mainPart with
              | some bytes => latin1Decode bytes
              | none => mainPart
            else mainPart
          else mainPart)

/-- C10 counterexample: the vmess payload `{"add":1}` makes `extractHostAndPort`
return the raw JSON number `1` as the host — the result is not always a pair
of strings. -/
theorem extractHostAndPort_nonstring_host :
    ¬ (∀ url : Str, ∃ h p : Str, extractHostAndPort url = ⟨.jstr h, p⟩) := by
  intro hall
  obtain ⟨h, p, he⟩ := hall ("vmess://eyJhZGQiOjF9".data)
  have hat : atob ['e', 'y', 'J', 'h', 'Z', 'G', 'Q', 'i', 'O', 'j', 'F', '9']
      = some [123, 34, 97, 100, 100, 34, 58, 49, 125] := rfl
  have hlat : latin1Decode [123, 34, 97, 100, 100, 34, 58, 49, 125]
      = ['\x7b', '"', 'a', 'd', 'd', '"', ':', '1', '\x7d'] := rfl
  have hj : jsonParse ['\x7b', '"', 'a', 'd', 'd', '"', ':', '1', '\x7d']
      = some (.jobj [(['a', 'd', 'd'], .jnum 1)]) := by
    have h0 := jsonParse_stringify (.jobj [(['a', 'd', 'd'], .jnum 1)])
    rw [show stringify (.jobj [(['a', 'd', 'd'], .jnum 1)])
      = ['\x7b', '"', 'a', 'd', 'd', '"', ':', '1', '\x7d'] from by
        simp +decide [stringify, stringifyFields, jsonQuote, jsonEscapeChar,
          intToStr, natToStr]] at h0
    exact h0
  have hv : extractHostAndPort ("vmess://eyJhZGQiOjF9".data) = ⟨.jnum 1, []⟩ := by
    simp +decide [extractHostAndPort, vmessHostPort, firstSplitSub, firstSplit,
      indexOfI, jsSubstring, isB64Shape, isB64ShapeChar, hat, hlat, hj, propGet,
      objGet, jsTruthy]
  rw [hv] at he
  simp at he

theorem firstSplitSub_eq (pat : Str) :
    ∀ (s b a : Str), firstSplitSub pat s = some (b, a) → s = b ++ pat ++ a := by
  intro s
  induction s with
  | nil =>
    intro b a h
    unfold firstSplitSub at h
    by_cases hp : pat.isPrefixOf ([] : Str) = true
    · rw [if_pos hp] at h
      have hpe : pat = [] := by
        cases pat with
        | nil => rfl
        | cons c t => simp [List.isPrefixOf] at hp
      simp only [Option.some.injEq, Prod.mk.injEq] at h
      obtain ⟨h1, h2⟩ := h
      subst h1
      subst h2
      subst hpe
      rfl
    · rw [if_neg hp] at h
      simp at h
  | cons c t ih =>
    intro b a h
    unfold firstSplitSub at h
    by_cases hp : pat.isPrefixOf (c :: t) = true
    · rw [if_pos hp] at h
      simp only [Option.some.injEq, Prod.mk.injEq] at h
      obtain ⟨h1, h2⟩ := h
      subst h1
      subst h2
      obtain ⟨u, hu⟩ := List.isPrefixOf_iff_prefix.mp hp
      rw [← hu, List.drop_left]
      simp
    · rw [if_neg hp] at h
      cases hrec : firstSplitSub pat t with
      | none => rw [hrec] at h; simp at h
      | some q =>
        obtain ⟨b2, a2⟩ := q
        rw [hrec] at h
        simp only [Option.map_some', Option.some.injEq, Prod.mk.injEq] at h
        obtain ⟨h1, h2⟩ := h
        subst h1
        subst h2
        have ht := ih b2 a2 hrec
        rw [ht]
        simp

theorem genericHostPort_host (mp : Str) : ∃ s, (genericHostPort mp).host = .jstr s := by
  unfold genericHostPort
  split
  · exact ⟨_, rfl⟩
  · split
    · exact ⟨_, rfl⟩
    · exact ⟨_, rfl⟩

/-- C10 (amended): `extractHostAndPort` is total — every exception path is
caught and yields empty strings (in particular, inputs without `://` map to
the empty pair) — and the port is always a string, but the host is a string
only away from the vmess branch: a well-formed `vmess://` payload with a
truthy non-string `add` field is returned as-is. -/
theorem extractHostAndPort_amended (url : Str) :
    ((∃ s, (extractHostAndPort url).host = .jstr s) ∨
      ("vmess://".data).isPrefixOf url = true) ∧
    (firstSplitSub ("://".data) url = none →
      extractHostAndPort url = ⟨.jstr [], []⟩) := by
  constructor
  · by_cases hu : url = []
    · exact Or.inl ⟨[], by simp [extractHostAndPort, hu]⟩
    · cases hfs : firstSplitSub ("://".data) url with
      | none => exact Or.inl ⟨[], by simp [extractHostAndPort, hu, hfs]⟩
      | some q =>
        obtain ⟨protocol, rest⟩ := q
        by_cases hv : protocol = "vmess".data
        · right
          have he := firstSplitSub_eq ("://".data) url protocol rest hfs
          rw [he, hv]
          rw [show ("vmess".data : Str) ++ "://".data ++ rest
            = "vmess://".data ++ rest from by simp]
          exact isPrefixOf_append_self _ _
        · left
          simp only [extractHostAndPort, hu, hfs, hv]
          simp only [if_false, Bool.false_eq_true]
          exact genericHostPort_host _
  · intro hfs
    by_cases hu : url = []
    · simp [extractHostAndPort, hu]
    · simp [extractHostAndPort, hu, hfs]

end MiSub
